import Mathlib

/-!
Verification development for the `epiphyte` worktree manager.

The Rust sources (`src/worktree.rs`, `src/config.rs`) are shallowly embedded
below.  Paths are modelled component-wise (`FsPath`), matching `std::path`
semantics where `Path::starts_with` and `Path::join` operate on components.
External effects (the git subprocess, the filesystem) are modelled as explicit
inputs: the text already captured from `git worktree list --porcelain`, a
path-indexed view of the filesystem, and error oracles for the fallible
syscalls.  Each definition's doc comment names the Rust function it embeds.
-/

namespace Epiphyte

/-- A filesystem path, as its list of components (the view used by
`Path::starts_with`, `Path::join`, `Path::file_name` in the Rust source). -/
abbrev FsPath := List String

/-- Model of Rust `str::starts_with` (does `p` occur at the start of `s`?). -/
def strStartsWith (s p : String) : Bool :=
  p.data.isPrefixOf s.data

/-- Model of the suffix taken by Rust `str::strip_prefix` once the prefix test
succeeded: drop the first `n` characters. -/
def strDrop (s : String) (n : Nat) : String :=
  String.mk (s.data.drop n)

/-- One record parsed from `git worktree list --porcelain`; embeds the Rust
`struct GitWorktree { path: PathBuf, branch: String }` at the parser level,
where the path is still the raw text following `worktree `. -/
structure ParsedWorktree where
  path : String
  branch : String
deriving DecidableEq, Repr

/-- The branch name extracted from a porcelain `branch ` line, as in
`list_git_worktrees`: `line.strip_prefix("branch refs/heads/")
.unwrap_or(line.strip_prefix("branch ").unwrap())`. -/
def parseBranchValue (line : String) : String :=
  if strStartsWith line "branch refs/heads/" then
    strDrop line "branch refs/heads/".length
  else
    strDrop line "branch ".length

/-- The loop body of `list_git_worktrees` (src/worktree.rs:590-614): the fold
over the porcelain lines carrying the pending `current_path` and
`current_branch`, including the final flush of the pending record. -/
def listGitWorktreesGo : List String → Option String → Option String → List ParsedWorktree
  | [], none, _ => []
  | [], some p, cb => [⟨p, cb.getD ""⟩]
  | line :: rest, cp, cb =>
    if strStartsWith line "worktree " then
      match cp with
      | some p =>
          ⟨p, cb.getD ""⟩ ::
            listGitWorktreesGo rest (some (strDrop line "worktree ".length)) none
      | none => listGitWorktreesGo rest (some (strDrop line "worktree ".length)) none
    else if strStartsWith line "branch " then
      listGitWorktreesGo rest cp (some (parseBranchValue line))
    else
      listGitWorktreesGo rest cp cb

/-- Embeds `list_git_worktrees` (src/worktree.rs:571-617) applied to the
captured stdout, already split into lines. -/
def list_git_worktrees (lines : List String) : List ParsedWorktree :=
  listGitWorktreesGo lines none none

/-- The porcelain text of one well-formed record: a `worktree ` line followed by
an optional `branch refs/heads/...` line (the form git emits for an attached
worktree; a detached worktree has no branch line). -/
def renderBlock (b : String × Option String) : List String :=
  ("worktree " ++ b.1) ::
    (match b.2 with
     | none => []
     | some br => ["branch refs/heads/" ++ br])

/-- A well-formed porcelain listing: the concatenation of well-formed records. -/
def renderListing (blocks : List (String × Option String)) : List String :=
  blocks.flatMap renderBlock

/-- Spec-side branch value, from the spec's words: a `branch refs/heads/X`
line names branch `X`; a plain `branch X` line also names branch `X`. -/
def specBranchValue (line : String) : String :=
  if strStartsWith line "branch refs/heads/" then
    strDrop line "branch refs/heads/".length
  else
    strDrop line "branch ".length

/-- Spec-side: the branch carried by a record's segment (the lines between its
`worktree ` line and the next one): each `branch ` line in the segment
(re)binds the record's branch — so every branch line is attributed to the
immediately preceding `worktree ` record — and all other lines are ignored. -/
def lastBranchUpd : List String → Option String → Option String
  | [], cb => cb
  | l :: rest, cb =>
    if strStartsWith l "branch " then lastBranchUpd rest (some (specBranchValue l))
    else lastBranchUpd rest cb

/-- Spec-side: a record with no branch line in its segment gets the empty
branch. -/
def specBranchOf (seg : List String) : String :=
  (lastBranchUpd seg none).getD ""

/-- Spec-side parser, written from the spec's words: a record starts at each
`worktree ` line and is terminated by the next `worktree ` line or end of
input (so the final record is always included); its branch comes from the
branch lines of its own segment; lines before the first `worktree ` line, and
non-branch lines inside a segment (porcelain `HEAD`, `detached`, blank
lines), belong to no record. -/
def specParseGo : List String → List ParsedWorktree
  | [] => []
  | line :: rest =>
    if strStartsWith line "worktree " then
      ⟨strDrop line "worktree ".length,
        specBranchOf (rest.takeWhile (fun l => !strStartsWith l "worktree "))⟩
        :: specParseGo (rest.dropWhile (fun l => !strStartsWith l "worktree "))
    else
      specParseGo rest
termination_by lines => lines.length
decreasing_by
  · simp only [List.length_cons]
    exact Nat.lt_succ_of_le (List.dropWhile_sublist _).length_le
  · simp

/-- Spec-side parser of a whole listing. -/
def specParseListing (lines : List String) : List ParsedWorktree :=
  specParseGo lines

/-! ## Worktree directory reconciler (src/worktree.rs:199-224, src/config.rs:77-79) -/

/-- A git-known worktree at the reconciler level: the path has been converted
to components (`PathBuf`), the branch is the parsed branch name.  Embeds the
Rust `struct GitWorktree`. -/
structure GitWorktree where
  path : FsPath
  branch : String
deriving DecidableEq, Repr

/-- A managed worktree; embeds the Rust `struct Worktree` (src/worktree.rs:160-165). -/
structure Worktree where
  name : String
  path : FsPath
  branch : String
deriving DecidableEq, Repr

/-- Embeds `get_trees_dir` (src/config.rs:77-79):
`project_root.join(CONFIG_DIR).join(TREES_DIR)` with `CONFIG_DIR = ".epi"`,
`TREES_DIR = "trees"`. -/
def get_trees_dir (projectRoot : FsPath) : FsPath :=
  projectRoot ++ [".epi", "trees"]

/-- Embeds `list_worktrees` (src/worktree.rs:199-224).  `treesDirExists` is the
result of the `trees_dir.exists()` probe; `gitListing` is the result the
`list_git_worktrees` gateway call *would* return — it is only consulted when
the trees directory exists, so a failing gateway is irrelevant otherwise. -/
def list_worktrees (projectRoot : FsPath) (treesDirExists : Bool)
    (gitListing : Except String (List GitWorktree)) :
    Except String (List Worktree) :=
  let treesDir := get_trees_dir projectRoot
  if treesDirExists = false then
    .ok []
  else
    match gitListing with
    | .error e => .error e
    | .ok worktrees =>
        .ok (worktrees.filterMap (fun wt =>
          if treesDir.isPrefixOf wt.path then
            some { name := (wt.path.getLast?).getD ""
                   path := wt.path
                   branch := wt.branch }
          else none))

/-! ## Symlink removal (src/worktree.rs:321-349)

The filesystem is modelled by what `remove_symlinks_from_worktrees` observes of
it: the result of the non-following `symlink_metadata` probe at each path, and
an error oracle for `fs::remove_file`. -/

/-- The file type reported by a metadata probe. -/
inductive FileType where
  | file
  | dir
  | symlink
deriving DecidableEq, Repr

/-- Result of `Path::symlink_metadata`: an entry with its (non-followed) file
type, no entry (`io::ErrorKind::NotFound`), or any other probe error. -/
inductive ProbeResult where
  | found (t : FileType)
  | notFound
  | error (msg : String)
deriving DecidableEq, Repr

/-- The filesystem as seen by the symlink-removal pass. -/
structure SymFs where
  probe : FsPath → ProbeResult
  removeErr : FsPath → Option String

/-- Effect of a successful `fs::remove_file p`: the entry at `p` is gone. -/
def SymFs.removeEntry (fs : SymFs) (p : FsPath) : SymFs :=
  { fs with probe := fun q => if q = p then .notFound else fs.probe q }

/-- The report of `remove_symlinks_from_worktrees`; embeds the Rust
`struct SymlinkRemovalReport` (src/worktree.rs:172-175). -/
structure SymlinkRemovalReport where
  removed : List (String × FsPath)
  failed : List (String × FsPath × String)
deriving DecidableEq, Repr

/-- The loop of `remove_symlinks_from_worktrees` (src/worktree.rs:329-346):
for each managed worktree, probe `path.join(rel_path)` without following
symlinks; a confirmed symlink is removed (recording success, or failure when
the removal call errors); a missing entry is skipped; a probe error is
recorded as a failure; an entry of any other file type falls through the
`is_symlink` test with no action and no record. -/
def removeSymlinksGo (relPath : FsPath) : List Worktree → SymFs →
    SymlinkRemovalReport × SymFs
  | [], fs => (⟨[], []⟩, fs)
  | wt :: rest, fs =>
    let dst := wt.path ++ relPath
    match fs.probe dst with
    | .found t =>
        if t = .symlink then
          match fs.removeErr dst with
          | some e =>
              let r := removeSymlinksGo relPath rest fs
              (⟨r.1.removed, (wt.name, dst, e) :: r.1.failed⟩, r.2)
          | none =>
              let r := removeSymlinksGo relPath rest (fs.removeEntry dst)
              (⟨(wt.name, dst) :: r.1.removed, r.1.failed⟩, r.2)
        else
          removeSymlinksGo relPath rest fs
    | .notFound => removeSymlinksGo relPath rest fs
    | .error e =>
        let r := removeSymlinksGo relPath rest fs
        (⟨r.1.removed, (wt.name, dst, e) :: r.1.failed⟩, r.2)

/-- Embeds `remove_symlinks_from_worktrees` (src/worktree.rs:321-349).  The
managed worktree list (which the source obtains from `list_worktrees`) is
taken as an input. -/
def remove_symlinks_from_worktrees (worktrees : List Worktree) (relPath : FsPath)
    (fs : SymFs) : SymlinkRemovalReport × SymFs :=
  removeSymlinksGo relPath worktrees fs

/-! ## File link engine (src/worktree.rs:496-556, src/config.rs:10-28)

The filesystem is a path-indexed map of entries.  `fs::create_dir_all`,
`fs::remove_file`, `fs::remove_dir_all` and the recursive directory copy act
pointwise on that map; `linkErr` is an error oracle for the creation step
(the `symlink` / `copy` syscall failing, e.g. for permissions).  Symbolic
links are stored as entries but not dereferenced by the model: `is_dir`
follows the node at the path itself, so source trees containing symlinks are
outside the modelled envelope (the claims' hypotheses keep sources
symlink-free). -/

/-- One filesystem entry. -/
inductive Node where
  | file (content : Nat)
  | dir
  | symlink (target : FsPath)
deriving DecidableEq, Repr

/-- The filesystem as seen by the link engine. -/
structure Fsm where
  node : FsPath → Option Node
  linkErr : FsPath → Option String

/-- Embeds `enum LinkType` (src/config.rs:12-15). -/
inductive LinkType where
  | copy
  | symlink
deriving DecidableEq, Repr

/-- Embeds `struct FileEntry` (src/config.rs:24-28); the repo-relative path is
kept in component form. -/
structure FileEntry where
  path : FsPath
  link_type : LinkType
deriving DecidableEq, Repr

/-- Effect of `fs::create_dir_all p`: every missing component on the way down
to `p` becomes a directory; existing entries are untouched. -/
def fsCreateDirAll (m : FsPath → Option Node) (p : FsPath) : FsPath → Option Node :=
  fun q => if q.isPrefixOf p && (m q).isNone then some .dir else m q

/-- Step 1 of `link_entry` (src/worktree.rs:498-501): create the destination's
parent directories (`dst.parent()` is `None` only for an empty path, in which
case the step is skipped). -/
def linkParentDirs (fs : Fsm) (dst : FsPath) : FsPath → Option Node :=
  if dst = [] then fs.node else fsCreateDirAll fs.node dst.dropLast

/-- Step 2 of `link_entry` (src/worktree.rs:503-510): if anything occupies
`dst` (`dst.exists() || dst.symlink_metadata().is_ok()` is exactly "the map
has an entry at `dst`"), remove it — recursively for a real directory
(`is_dir && !is_symlink`), as a single entry (`remove_file`) otherwise, which
also covers a symlink that points at a directory. -/
def linkRemoveExisting (m : FsPath → Option Node) (dst : FsPath) :
    FsPath → Option Node :=
  match m dst with
  | none => m
  | some .dir => fun q => if dst.isPrefixOf q then none else m q
  | some _ => fun q => if q = dst then none else m q

/-- Embeds `link_entry` (src/worktree.rs:496-541).  Returns the filesystem
after the call together with `none` on success or the error message the Rust
`Result` would carry.  After the parent-directory and removal steps, step 3
creates the link: a symlink node pointing at `src`, or a copy — recursive
(pointwise over the source subtree) when `src.is_dir()`, a single node
otherwise, failing when `src` is gone.  The creation syscall's failure is the
`linkErr` oracle at `dst`. -/
def link_entry (fs : Fsm) (src dst : FsPath) (lt : LinkType) : Fsm × Option String :=
  let m1 := linkRemoveExisting (linkParentDirs fs dst) dst
  match lt with
  | .symlink =>
      match fs.linkErr dst with
      | some e => ({ fs with node := m1 }, some e)
      | none =>
          ({ fs with node := fun q => if q = dst then some (.symlink src) else m1 q },
           none)
  | .copy =>
      match m1 src with
      | none => ({ fs with node := m1 }, some "Failed to copy: source does not exist")
      | some .dir =>
          match fs.linkErr dst with
          | some e => ({ fs with node := m1 }, some e)
          | none =>
              ({ fs with node := fun q =>
                   if dst.isPrefixOf q then m1 (src ++ q.drop dst.length) else m1 q },
               none)
      | some n =>
          match fs.linkErr dst with
          | some e => ({ fs with node := m1 }, some e)
          | none =>
              ({ fs with node := fun q => if q = dst then some n else m1 q }, none)

/-- Embeds `struct LinkReport` (src/worktree.rs:177-181). -/
structure LinkReport where
  linked : List (String × FsPath)
  failed : List (String × FsPath × String)
deriving DecidableEq, Repr

/-- Inner loop of `link_entries_to_worktrees` (src/worktree.rs:372-384): one
entry fanned out over every managed worktree, each outcome recorded
independently. -/
def linkWorktreesGo (entryPath : FsPath) (lt : LinkType) (src : FsPath) :
    List Worktree → Fsm →
    (List (String × FsPath) × List (String × FsPath × String)) × Fsm
  | [], fs => (([], []), fs)
  | wt :: rest, fs =>
      let dst := wt.path ++ entryPath
      let s := link_entry fs src dst lt
      let r := linkWorktreesGo entryPath lt src rest s.1
      match s.2 with
      | none => (((wt.name, dst) :: r.1.1, r.1.2), r.2)
      | some err => ((r.1.1, (wt.name, dst, err) :: r.1.2), r.2)

/-- Outer loop of `link_entries_to_worktrees` (src/worktree.rs:362-385): an
entry whose source is absent from the repository root is logged and skipped
for all worktrees. -/
def linkEntriesGo (root : FsPath) (wts : List Worktree) :
    List FileEntry → Fsm → LinkReport × Fsm
  | [], fs => (⟨[], []⟩, fs)
  | e :: rest, fs =>
      let src := root ++ e.path
      if (fs.node src).isNone then
        linkEntriesGo root wts rest fs
      else
        let r1 := linkWorktreesGo e.path e.link_type src wts fs
        let r2 := linkEntriesGo root wts rest r1.2
        (⟨r1.1.1 ++ r2.1.linked, r1.1.2 ++ r2.1.failed⟩, r2.2)

/-- Embeds `link_entries_to_worktrees` (src/worktree.rs:351-388).  The managed
worktree list (obtained from `list_worktrees` in the source) is an input; the
empty-worktrees / empty-entries early return yields the default report. -/
def link_entries_to_worktrees (root : FsPath) (entries : List FileEntry)
    (worktrees : List Worktree) (fs : Fsm) : LinkReport × Fsm :=
  if worktrees.isEmpty || entries.isEmpty then (⟨[], []⟩, fs)
  else linkEntriesGo root worktrees entries fs

/-- Embeds `link_files` (src/worktree.rs:480-494): for each configured entry,
a missing source is logged and skipped; otherwise `link_entry` runs and its
error — if any — is propagated immediately (the `?` operator), aborting the
remaining entries.  Returns the filesystem reached so far and the propagated
error, if any. -/
def link_files (root wtPath : FsPath) : List FileEntry → Fsm → Fsm × Option String
  | [], fs => (fs, none)
  | e :: rest, fs =>
      let src := root ++ e.path
      if (fs.node src).isNone then
        link_files root wtPath rest fs
      else
        let s := link_entry fs src (wtPath ++ e.path) e.link_type
        match s.2 with
        | some msg => (s.1, some msg)
        | none => link_files root wtPath rest s.1

/-- Display form of a path used when it is passed as a subprocess argument
(`to_string_lossy`). -/
def pathString (p : FsPath) : String :=
  String.intercalate "/" p

/-- Embeds `add_worktree` (src/worktree.rs:426-478) together with
`branch_exists` (src/worktree.rs:28-36).  `pathExists` is the
`worktree_path.exists()` probe; `branches` answers the `git show-ref` branch
existence check; `gitAddErr` is the outcome of the `git worktree add`
invocation, keyed by its argument list.  The returned trace lists every git
command issued, in order, so that "no VCS command is issued" is observable. -/
def add_worktree (root : FsPath) (name : String) (branch : Option String)
    (files : List FileEntry) (pathExists : Bool) (branches : String → Bool)
    (gitAddErr : List String → Option String) (fs : Fsm) :
    (Except String FsPath × List (List String)) × Fsm :=
  let treesDir := get_trees_dir root
  let worktreePath := treesDir ++ [name]
  if pathExists then
    ((.error ("Worktree '" ++ name ++ "' already exists"), []), fs)
  else
    let pathStr := pathString worktreePath
    let probe : List (List String) × String × Bool :=
      match branch with
      | some b => ([], b, false)
      | none =>
          (["show-ref", "--verify", "--quiet", "refs/heads/" ++ name] :: [],
           name, !branches name)
    let (trace0, branchName, createNew) := probe
    let args :=
      if createNew then ["worktree", "add", "-b", branchName, pathStr]
      else ["worktree", "add", pathStr, branchName]
    let trace := trace0 ++ [args]
    match gitAddErr args with
    | some e => ((.error ("git worktree add failed: " ++ e), trace), fs)
    | none =>
        let lf := link_files root worktreePath files fs
        match lf.2 with
        | some e => ((.error e, trace), lf.1)
        | none => ((.ok worktreePath, trace), lf.1)

/-! ## Importing foreign worktrees (src/worktree.rs:226-319, 619-639) -/

/-- Embeds `struct ImportMove` (src/worktree.rs:226-230); the Rust fields
`from`/`to` are named `fromPath`/`toPath` (`from` is a Lean keyword). -/
structure ImportMove where
  fromPath : FsPath
  toPath : FsPath
  relink_error : Option String
deriving DecidableEq, Repr

/-- Embeds `struct ImportSkip` (src/worktree.rs:232-235). -/
structure ImportSkip where
  path : FsPath
  reason : String
deriving DecidableEq, Repr

/-- Embeds `struct ImportFailure` (src/worktree.rs:237-240). -/
structure ImportFailure where
  path : FsPath
  error : String
deriving DecidableEq, Repr

/-- Embeds `struct ImportReport` (src/worktree.rs:242-247). -/
structure ImportReport where
  moved : List ImportMove
  skipped : List ImportSkip
  failed : List ImportFailure
deriving DecidableEq, Repr

/-- The `i`-th destination candidate tried by `unique_import_path`: first the
plain base name, then `base-2`, `base-3`, …. -/
def importCandidate (treesDir : FsPath) (base : String) : Nat → FsPath
  | 0 => treesDir ++ [base]
  | i + 1 => treesDir ++ [base ++ "-" ++ toString (i + 2)]

/-- Embeds `unique_import_path` (src/worktree.rs:619-639).  `occ` is the finite
list of paths that exist on disk (the `candidate.exists()` probe).  The Rust
loop returns the first free candidate; since the candidates are pairwise
distinct, a free one occurs among the first `occ.length + 1`, so the search is
bounded there (the `none` fallback is unreachable). -/
def unique_import_path (occ : List FsPath) (treesDir : FsPath)
    (baseName : String) : FsPath :=
  let base := if baseName = "" then "worktree" else baseName
  match (List.range (occ.length + 1)).find?
      (fun i => !(occ.contains (importCandidate treesDir base i))) with
  | some i => importCandidate treesDir base i
  | none => treesDir ++ [base]

/-- The loop of `import_all_worktrees` (src/worktree.rs:257-316): each git
worktree is classified — the main tree and trees already under the managed
directory are skipped with their reasons; any other tree is moved to a fresh
destination under the managed directory, a move failure is recorded without
aborting, and after a successful move the re-link outcome (`relinkRes`, keyed
by the new worktree name) is recorded alongside the move.  `occ` is threaded:
a successful move makes the destination exist and frees the source. -/
def importGo (root : FsPath) (moveErr : FsPath → FsPath → Option String)
    (relinkRes : String → Option String) :
    List GitWorktree → List FsPath → ImportReport
  | [], _ => ⟨[], [], []⟩
  | wt :: rest, occ =>
    let treesDir := get_trees_dir root
    if wt.path = root then
      let r := importGo root moveErr relinkRes rest occ
      { r with skipped := ⟨wt.path, "main worktree"⟩ :: r.skipped }
    else if treesDir.isPrefixOf wt.path then
      let r := importGo root moveErr relinkRes rest occ
      { r with skipped := ⟨wt.path, "already managed"⟩ :: r.skipped }
    else
      let base := (wt.path.getLast?).getD "worktree"
      let dest := unique_import_path occ treesDir base
      match moveErr wt.path dest with
      | some e =>
          let r := importGo root moveErr relinkRes rest occ
          { r with failed :=
              ⟨wt.path, "git worktree move failed: " ++ e⟩ :: r.failed }
      | none =>
          let nm := (dest.getLast?).getD ""
          let rerr :=
            if nm = "" then some "relink failed: unable to determine worktree name"
            else (relinkRes nm).map (fun e => "relink failed: " ++ e)
          let r := importGo root moveErr relinkRes rest (dest :: occ.erase wt.path)
          { r with moved := ⟨wt.path, dest, rerr⟩ :: r.moved }

/-- Embeds `import_all_worktrees` (src/worktree.rs:249-319).  The raw git
listing, the set of existing paths and the outcomes of the `git worktree
move` / re-link calls are inputs. -/
def import_all_worktrees (root : FsPath) (raw : List GitWorktree)
    (occ : List FsPath) (moveErr : FsPath → FsPath → Option String)
    (relinkRes : String → Option String) : ImportReport :=
  importGo root moveErr relinkRes raw occ

/-- How the filesystem can change across the symlink-removal pass: the removal
oracle is untouched and the entry at a path either stays what it was or
becomes absent — the latter only if it was a symlink. -/
def SymFsEvolves (fs fs' : SymFs) : Prop :=
  fs'.removeErr = fs.removeErr ∧
  ∀ p, fs'.probe p = fs.probe p
    ∨ (fs'.probe p = .notFound ∧ fs.probe p = .found .symlink)

/-- Two paths neither of which lies under the other. -/
abbrev pathsIncomp (a b : FsPath) : Prop :=
  ¬ a <+: b ∧ ¬ b <+: a

/-- A path-indexed map is filesystem-shaped when every strict ancestor of an
existing entry is a directory (real filesystems cannot hang entries below a
file, a symlink, or a missing path). -/
def FsCoherent (m : FsPath → Option Node) : Prop :=
  ∀ p s : FsPath, s ≠ [] → m (p ++ s) ≠ none → m p = some .dir

/-! ## Helper lemmas -/

theorem strStartsWith_append (p r : String) : strStartsWith (p ++ r) p = true := by
  simp only [strStartsWith, String.data_append]
  have h : p.data <+: p.data ++ r.data := List.prefix_append _ _
  exact (List.isPrefixOf_iff_prefix).mpr h

theorem strDrop_append (p r : String) : strDrop (p ++ r) p.length = r := by
  show String.mk ((p.data ++ r.data).drop p.data.length) = r
  rw [List.drop_left]

theorem branchLine_not_worktree (br : String) :
    strStartsWith ("branch refs/heads/" ++ br) "worktree " = false := rfl

theorem branchHeads_split (br : String) :
    "branch refs/heads/" ++ br = "branch " ++ ("refs/heads/" ++ br) := rfl

theorem branchLine_is_branch (br : String) :
    strStartsWith ("branch refs/heads/" ++ br) "branch " = true := by
  rw [branchHeads_split]
  exact strStartsWith_append _ _

theorem parseBranchValue_heads (br : String) :
    parseBranchValue ("branch refs/heads/" ++ br) = br := by
  simp only [parseBranchValue, strStartsWith_append, if_true]
  exact strDrop_append _ _

theorem listGitWorktreesGo_render (blocks : List (String × Option String)) :
    ∀ cp cb : Option String,
      listGitWorktreesGo (renderListing blocks) cp cb
        = (match cp with
           | some p => ⟨p, cb.getD ""⟩ :: blocks.map (fun b => ⟨b.1, b.2.getD ""⟩)
           | none => blocks.map (fun b => ⟨b.1, b.2.getD ""⟩)) := by
  induction blocks with
  | nil => intro cp cb; cases cp <;> rfl
  | cons b bs ih =>
    intro cp cb
    obtain ⟨p, ob⟩ := b
    cases ob with
    | none =>
      cases cp <;>
        simp [renderListing, renderBlock, listGitWorktreesGo, strStartsWith_append,
          strDrop_append] <;>
        simpa [renderListing] using ih (some p) none
    | some br =>
      cases cp <;>
        simp [renderListing, renderBlock, listGitWorktreesGo, strStartsWith_append,
          strDrop_append, branchLine_not_worktree, branchLine_is_branch,
          parseBranchValue_heads] <;>
        simpa [renderListing] using ih (some p) (some br)

theorem listGitWorktreesGo_paths (lines : List String) :
    ∀ cp cb : Option String,
      (listGitWorktreesGo lines cp cb).map ParsedWorktree.path
        = cp.toList ++ (lines.filter (fun l => strStartsWith l "worktree ")).map
            (fun l => strDrop l "worktree ".length) := by
  induction lines with
  | nil => intro cp cb; cases cp <;> simp [listGitWorktreesGo]
  | cons l rest ih =>
    intro cp cb
    by_cases hw : strStartsWith l "worktree "
    · cases cp <;> simp [listGitWorktreesGo, hw, ih]
    · by_cases hb : strStartsWith l "branch " <;>
        cases cp <;> simp [listGitWorktreesGo, hw, hb, ih]

theorem listGitWorktreesGo_some (lines : List String) :
    ∀ (cb : Option String) (p : String),
      listGitWorktreesGo lines (some p) cb
        = ⟨p, (lastBranchUpd (lines.takeWhile (fun l => !strStartsWith l "worktree ")) cb).getD ""⟩
          :: specParseGo (lines.dropWhile (fun l => !strStartsWith l "worktree ")) := by
  induction lines with
  | nil =>
    intro cb p
    simp [listGitWorktreesGo, lastBranchUpd, specParseGo]
  | cons line rest ih =>
    intro cb p
    by_cases hw : strStartsWith line "worktree " = true
    · simp only [listGitWorktreesGo, hw, if_true]
      rw [ih none (strDrop line "worktree ".length)]
      simp [List.takeWhile_cons, List.dropWhile_cons, hw, specParseGo, specBranchOf,
        lastBranchUpd]
    · by_cases hb : strStartsWith line "branch " = true
      · simp only [listGitWorktreesGo, hw, hb, if_false, if_true, Bool.false_eq_true]
        rw [ih (some (parseBranchValue line)) p]
        simp [List.takeWhile_cons, List.dropWhile_cons, hw, lastBranchUpd, hb]
        rfl
      · simp only [listGitWorktreesGo, hw, hb, if_false, Bool.false_eq_true]
        rw [ih cb p]
        simp [List.takeWhile_cons, List.dropWhile_cons, hw, lastBranchUpd, hb]

theorem listGitWorktreesGo_none (lines : List String) :
    ∀ cb : Option String, listGitWorktreesGo lines none cb = specParseGo lines := by
  induction lines with
  | nil => intro cb; simp [listGitWorktreesGo, specParseGo]
  | cons line rest ih =>
    intro cb
    by_cases hw : strStartsWith line "worktree " = true
    · simp only [listGitWorktreesGo, hw, if_true]
      rw [listGitWorktreesGo_some rest none (strDrop line "worktree ".length)]
      simp [specParseGo, hw, specBranchOf]
    · by_cases hb : strStartsWith line "branch " = true <;>
        simp [listGitWorktreesGo, hw, hb, ih, specParseGo]

/-! ## Claim theorems -/

/-- **C1**: the parser is, on *every* input, the spec-side segment parser
(first conjunct): one record per `worktree ` line, records terminated by the
next `worktree ` line or end of input (the final record is always flushed),
each `branch refs/heads/...` or plain `branch ...` line attributed to the
immediately preceding `worktree ` record, an empty branch for a record with
no branch line, with interleaved lines (porcelain `HEAD`, `detached`, blank
lines) ignored.  Consequently (second conjunct) the parsed paths are exactly
the `worktree `-line suffixes in input order, so a well-formed input with N
`worktree ` lines yields exactly N records in order and the last is never
dropped; a listing of well-formed blocks parses to exactly those blocks
(third conjunct); and a concrete porcelain listing with `HEAD` lines, blank
lines, a `refs/heads/` branch, a plain branch (the `unwrap_or` fallback) and
a detached final record parses as claimed (fourth conjunct). -/
theorem listing_parser_total_ordered_flushes :
    (∀ lines : List String, list_git_worktrees lines = specParseListing lines)
    ∧ (∀ lines : List String,
       (list_git_worktrees lines).map ParsedWorktree.path
         = (lines.filter (fun l => strStartsWith l "worktree ")).map
             (fun l => strDrop l "worktree ".length))
    ∧ (∀ blocks : List (String × Option String),
       list_git_worktrees (renderListing blocks)
         = blocks.map (fun b => ⟨b.1, b.2.getD ""⟩))
    ∧ list_git_worktrees
        ["worktree /r", "HEAD 1111111", "branch refs/heads/main", "",
         "worktree /r/.epi/trees/a", "HEAD 2222222", "branch feature/x", "",
         "worktree /r/.epi/trees/b", "HEAD 3333333", "detached"]
      = [⟨"/r", "main"⟩, ⟨"/r/.epi/trees/a", "feature/x"⟩,
         ⟨"/r/.epi/trees/b", ""⟩] := by
  refine ⟨fun lines => listGitWorktreesGo_none lines none, fun lines => ?_,
    fun blocks => listGitWorktreesGo_render blocks none none, by decide⟩
  simpa using listGitWorktreesGo_paths lines none none

theorem isPrefixOf_eq_decide (l₁ l₂ : List String) :
    l₁.isPrefixOf l₂ = decide (l₁ <+: l₂) := by
  by_cases h : l₁ <+: l₂
  · simp only [h, decide_True]
    exact (List.isPrefixOf_iff_prefix).mpr h
  · simp only [h, decide_False]
    rw [← Bool.not_eq_true]
    exact fun hc => h ((List.isPrefixOf_iff_prefix).mp hc)

theorem list_worktrees_ok_eq (root : FsPath) (raw : List GitWorktree) :
    list_worktrees root true (.ok raw)
      = .ok ((raw.filter
            (fun wt => (get_trees_dir root).isPrefixOf wt.path)).map
          (fun wt => ⟨(wt.path.getLast?).getD "", wt.path, wt.branch⟩)) := by
  induction raw with
  | nil => rfl
  | cons wt rest ih =>
    by_cases h : get_trees_dir root <+: wt.path <;>
      simp [list_worktrees, List.filterMap_cons, List.filter_cons,
        isPrefixOf_eq_decide, h] <;>
      simpa [list_worktrees, isPrefixOf_eq_decide] using ih

/-- **C3**: the managed set is exactly the component-wise path-prefix filter of
the raw listing — membership holds iff the managed directory is a path prefix
of the record's path, each managed record's name is the final path component,
and the output keeps the raw listing's order (the managed paths are the raw
paths filtered, in order, not sorted). -/
theorem listWorktrees_is_path_filter :
    ∀ (root : FsPath) (raw : List GitWorktree),
      ∃ managed : List Worktree,
        list_worktrees root true (.ok raw) = .ok managed
        ∧ managed.map Worktree.path
            = (raw.map GitWorktree.path).filter
                (fun p => decide (get_trees_dir root <+: p))
        ∧ (∀ p : FsPath,
            (∃ w ∈ managed, w.path = p)
              ↔ ∃ wt ∈ raw, wt.path = p ∧ get_trees_dir root <+: p)
        ∧ (∀ w ∈ managed, w.name = (w.path.getLast?).getD "") := by
  intro root raw
  refine ⟨_, list_worktrees_ok_eq root raw, ?_, ?_, ?_⟩
  · induction raw with
    | nil => rfl
    | cons wt rest ih =>
      simp only [isPrefixOf_eq_decide, List.map_map] at ih
      by_cases h : get_trees_dir root <+: wt.path <;>
        simp [List.filter_cons, isPrefixOf_eq_decide, h, ih]
  · intro p
    constructor
    · rintro ⟨w, hw, rfl⟩
      rw [List.mem_map] at hw
      obtain ⟨wt, hwt, rfl⟩ := hw
      rw [List.mem_filter, isPrefixOf_eq_decide] at hwt
      exact ⟨wt, hwt.1, rfl, by simpa using hwt.2⟩
    · rintro ⟨wt, hwt, rfl, hpre⟩
      refine ⟨⟨(wt.path.getLast?).getD "", wt.path, wt.branch⟩, ?_, rfl⟩
      rw [List.mem_map]
      exact ⟨wt, by rw [List.mem_filter, isPrefixOf_eq_decide]; simpa using ⟨hwt, hpre⟩, rfl⟩
  · intro w hw
    rw [List.mem_map] at hw
    obtain ⟨wt, _, rfl⟩ := hw
    rfl

/-- Witness for the managed-set filter theorem: a concrete listing with the
main tree and one managed tree, where the managed tree is kept. -/
theorem listWorktrees_is_path_filter_witness :
    ∃ managed : List Worktree,
      list_worktrees ["r"] true
          (.ok [⟨["r"], "main"⟩, ⟨["r", ".epi", "trees", "a"], "fa"⟩]) = .ok managed
      ∧ managed.map Worktree.path
          = ([["r"], ["r", ".epi", "trees", "a"]].filter
              (fun p => decide (get_trees_dir ["r"] <+: p)))
      ∧ (∃ w ∈ managed, w.path = ["r", ".epi", "trees", "a"]) := by
  obtain ⟨m, h1, h2, h3, _⟩ :=
    listWorktrees_is_path_filter ["r"] [⟨["r"], "main"⟩, ⟨["r", ".epi", "trees", "a"], "fa"⟩]
  refine ⟨m, h1, by simpa using h2, (h3 ["r", ".epi", "trees", "a"]).mpr ?_⟩
  exact ⟨⟨["r", ".epi", "trees", "a"], "fa"⟩, by simp, rfl, by decide⟩

/-- **C7**: `add_worktree` with an existing target directory fails with the
already-exists error and issues no git command at all (empty trace); otherwise
the branch policy is, in priority order: an explicit override is checked out
as-is (no `-b`, and the branch-existence probe is not even run); with no
override, a branch named exactly like the worktree is checked out when the
probe finds it, and created with `-b` when it does not. -/
theorem addWorktree_exists_and_branch_policy :
    ∀ (root : FsPath) (name : String) (files : List FileEntry)
      (branch : Option String) (branches : String → Bool)
      (gitAddErr : List String → Option String) (fs : Fsm),
      (add_worktree root name branch files true branches gitAddErr fs
         = ((.error ("Worktree '" ++ name ++ "' already exists"), []), fs))
      ∧ (∀ b : String,
          (add_worktree root name (some b) files false branches gitAddErr fs).1.2
            = [["worktree", "add", pathString (get_trees_dir root ++ [name]), b]])
      ∧ ((add_worktree root name none files false branches gitAddErr fs).1.2
          = [["show-ref", "--verify", "--quiet", "refs/heads/" ++ name],
             if branches name then
               ["worktree", "add", pathString (get_trees_dir root ++ [name]), name]
             else
               ["worktree", "add", "-b", name,
                pathString (get_trees_dir root ++ [name])]]) := by
  intro root name files branch branches gitAddErr fs
  refine ⟨rfl, ?_, ?_⟩
  · intro b
    simp only [add_worktree]
    split
    · next h => simp at h
    · split
      · rfl
      · split <;> rfl
  · by_cases hb : branches name <;>
      simp only [add_worktree, hb, Bool.not_true, Bool.not_false, if_true, if_false] <;>
      first
      | (split
         · next h => simp at h
         · split
           · rfl
           · split <;> rfl)

/-- **C10**: when the managed trees directory does not exist, listing managed
worktrees returns the empty list whatever the git listing would have been —
even a failing `git worktree list` is never consulted. -/
theorem listWorktrees_empty_without_treesDir :
    ∀ (root : FsPath) (gitListing : Except String (List GitWorktree)),
      list_worktrees root false gitListing = .ok [] := by
  intro root g
  rfl

/-! ### Symlink-removal invariants (C2) -/

theorem symFsEvolves_refl (fs : SymFs) : SymFsEvolves fs fs :=
  ⟨rfl, fun _ => Or.inl rfl⟩

theorem symFsEvolves_trans {a b c : SymFs} (h1 : SymFsEvolves a b)
    (h2 : SymFsEvolves b c) : SymFsEvolves a c := by
  refine ⟨h2.1.trans h1.1, fun p => ?_⟩
  rcases h2.2 p with h | ⟨h, h'⟩
  · rw [h]; exact h1.2 p
  · rcases h1.2 p with g | ⟨g, g'⟩
    · exact Or.inr ⟨h, g ▸ h'⟩
    · rw [g] at h'; cases h'

theorem symFsEvolves_removeEntry (fs : SymFs) (p : FsPath)
    (h : fs.probe p = .found .symlink) : SymFsEvolves fs (fs.removeEntry p) := by
  refine ⟨rfl, fun q => ?_⟩
  by_cases hq : q = p
  · subst hq; exact Or.inr ⟨by simp [SymFs.removeEntry], h⟩
  · exact Or.inl (by simp [SymFs.removeEntry, hq])

theorem removeSymlinksGo_spec (rel : FsPath) (wts : List Worktree) :
    ∀ fs : SymFs,
      SymFsEvolves fs (removeSymlinksGo rel wts fs).2
      ∧ (∀ x ∈ (removeSymlinksGo rel wts fs).1.removed,
          fs.probe x.2 = .found .symlink)
      ∧ (∀ x ∈ (removeSymlinksGo rel wts fs).1.failed,
          fs.probe x.2.1 = .error x.2.2
          ∨ (fs.probe x.2.1 = .found .symlink
              ∧ fs.removeErr x.2.1 = some x.2.2)) := by
  induction wts with
  | nil =>
    intro fs
    exact ⟨symFsEvolves_refl fs, by simp [removeSymlinksGo], by simp [removeSymlinksGo]⟩
  | cons wt rest ih =>
    intro fs
    rcases hp : fs.probe (wt.path ++ rel) with t | _ | e
    · by_cases ht : t = FileType.symlink
      · subst ht
        rcases hr : fs.removeErr (wt.path ++ rel) with _ | e
        · -- removal succeeds
          have hev := symFsEvolves_removeEntry fs (wt.path ++ rel) hp
          obtain ⟨e1, e2, e3⟩ := ih (fs.removeEntry (wt.path ++ rel))
          have heq : removeSymlinksGo rel (wt :: rest) fs
              = (⟨(wt.name, wt.path ++ rel) ::
                    (removeSymlinksGo rel rest (fs.removeEntry (wt.path ++ rel))).1.removed,
                  (removeSymlinksGo rel rest (fs.removeEntry (wt.path ++ rel))).1.failed⟩,
                 (removeSymlinksGo rel rest (fs.removeEntry (wt.path ++ rel))).2) := by
            simp [removeSymlinksGo, hp, hr]
          rw [heq]
          refine ⟨symFsEvolves_trans hev e1, ?_, ?_⟩
          · rintro x hx
            rcases List.mem_cons.mp hx with rfl | hx
            · exact hp
            · have := e2 x hx
              by_cases hxd : x.2 = wt.path ++ rel
              · rw [hxd] at this; simp [SymFs.removeEntry] at this
              · simpa [SymFs.removeEntry, hxd] using this
          · rintro x hx
            have := e3 x hx
            by_cases hxd : x.2.1 = wt.path ++ rel
            · rw [hxd] at this; simp [SymFs.removeEntry] at this
            · simpa [SymFs.removeEntry, hxd] using this
        · -- removal fails
          obtain ⟨e1, e2, e3⟩ := ih fs
          have heq : removeSymlinksGo rel (wt :: rest) fs
              = (⟨(removeSymlinksGo rel rest fs).1.removed,
                  (wt.name, wt.path ++ rel, e) :: (removeSymlinksGo rel rest fs).1.failed⟩,
                 (removeSymlinksGo rel rest fs).2) := by
            simp [removeSymlinksGo, hp, hr]
          rw [heq]
          refine ⟨e1, e2, ?_⟩
          rintro x hx
          rcases List.mem_cons.mp hx with rfl | hx
          · exact Or.inr ⟨hp, hr⟩
          · exact e3 x hx
      · -- a non-symlink entry occupies the path: silent skip
        have heq : removeSymlinksGo rel (wt :: rest) fs
            = removeSymlinksGo rel rest fs := by
          simp [removeSymlinksGo, hp, ht]
        rw [heq]
        exact ih fs
    · have heq : removeSymlinksGo rel (wt :: rest) fs
          = removeSymlinksGo rel rest fs := by
        simp [removeSymlinksGo, hp]
      rw [heq]
      exact ih fs
    · obtain ⟨e1, e2, e3⟩ := ih fs
      have heq : removeSymlinksGo rel (wt :: rest) fs
          = (⟨(removeSymlinksGo rel rest fs).1.removed,
              (wt.name, wt.path ++ rel, e) :: (removeSymlinksGo rel rest fs).1.failed⟩,
             (removeSymlinksGo rel rest fs).2) := by
        simp [removeSymlinksGo, hp]
      rw [heq]
      refine ⟨e1, e2, ?_⟩
      rintro x hx
      rcases List.mem_cons.mp hx with rfl | hx
      · exact Or.inl hp
      · exact e3 x hx

/-- **C2 counterexample**: the claim says a worktree whose target path is
occupied by a regular file is recorded in the report's failure list.  It is
not: with one managed worktree whose target is a regular file, the code takes
the `Ok(metadata)` / not-a-symlink branch, which records nothing — both report
lists come back empty (while the file is indeed left in place). -/
theorem removeSymlinks_nonsymlink_not_failed_counterexample :
    (remove_symlinks_from_worktrees [⟨"a", ["t", "a"], "b"⟩] ["env"]
        ⟨fun p => if p = ["t", "a", "env"] then .found .file else .notFound,
         fun _ => none⟩).1.failed = []
    ∧ (remove_symlinks_from_worktrees [⟨"a", ["t", "a"], "b"⟩] ["env"]
        ⟨fun p => if p = ["t", "a", "env"] then .found .file else .notFound,
         fun _ => none⟩).1.removed = []
    ∧ (remove_symlinks_from_worktrees [⟨"a", ["t", "a"], "b"⟩] ["env"]
        ⟨fun p => if p = ["t", "a", "env"] then .found .file else .notFound,
         fun _ => none⟩).2.probe ["t", "a", "env"] = .found .file := by
  refine ⟨rfl, rfl, rfl⟩

/-- **C2 (amended)**: only entries the non-following probe confirms to be
symlinks are ever removed; a worktree whose target path is occupied by a
non-symlink (regular file or directory) is left on disk unchanged and is
recorded in *neither* report list (a silent skip — not, as the claim said, a
failure entry); an absent target is likewise a silent no-op recorded in
neither list. -/
theorem removeSymlinks_only_removes_symlinks :
    ∀ (wts : List Worktree) (rel : FsPath) (fs : SymFs),
      (∀ x ∈ (remove_symlinks_from_worktrees wts rel fs).1.removed,
          fs.probe x.2 = .found .symlink)
      ∧ (∀ wt ∈ wts, ∀ t : FileType, t ≠ .symlink →
          fs.probe (wt.path ++ rel) = .found t →
          (remove_symlinks_from_worktrees wts rel fs).2.probe (wt.path ++ rel)
              = .found t
          ∧ (∀ n, (n, wt.path ++ rel)
              ∉ (remove_symlinks_from_worktrees wts rel fs).1.removed)
          ∧ (∀ n e, (n, wt.path ++ rel, e)
              ∉ (remove_symlinks_from_worktrees wts rel fs).1.failed))
      ∧ (∀ wt ∈ wts, fs.probe (wt.path ++ rel) = .notFound →
          (remove_symlinks_from_worktrees wts rel fs).2.probe (wt.path ++ rel)
              = .notFound
          ∧ (∀ n, (n, wt.path ++ rel)
              ∉ (remove_symlinks_from_worktrees wts rel fs).1.removed)
          ∧ (∀ n e, (n, wt.path ++ rel, e)
              ∉ (remove_symlinks_from_worktrees wts rel fs).1.failed)) := by
  intro wts rel fs
  simp only [remove_symlinks_from_worktrees]
  obtain ⟨hev, hrem, hfail⟩ := removeSymlinksGo_spec rel wts fs
  refine ⟨hrem, ?_, ?_⟩
  · intro wt _ t ht hp
    refine ⟨?_, ?_, ?_⟩
    · rcases hev.2 (wt.path ++ rel) with h | ⟨_, h⟩
      · rw [h, hp]
      · rw [hp] at h; cases h; exact absurd rfl ht
    · intro n hn
      have := hrem (n, wt.path ++ rel) hn
      rw [hp] at this; cases this; exact absurd rfl ht
    · intro n e hn
      rcases hfail (n, wt.path ++ rel, e) hn with h | ⟨h, _⟩
      · rw [hp] at h; cases h
      · rw [hp] at h; cases h; exact absurd rfl ht
  · intro wt _ hp
    refine ⟨?_, ?_, ?_⟩
    · rcases hev.2 (wt.path ++ rel) with h | ⟨h, _⟩
      · rw [h, hp]
      · exact h
    · intro n hn
      have := hrem (n, wt.path ++ rel) hn
      rw [hp] at this; cases this
    · intro n e hn
      rcases hfail (n, wt.path ++ rel, e) hn with h | ⟨h, _⟩
      · rw [hp] at h; cases h
      · rw [hp] at h; cases h

/-- Witness: one managed worktree whose target is a regular file — the file
survives and neither list mentions it; a second worktree with an absent target
is also in neither list. -/
theorem removeSymlinks_only_removes_symlinks_witness :
    ((remove_symlinks_from_worktrees [⟨"a", ["t", "a"], "b"⟩] ["env"]
        ⟨fun p => if p = ["t", "a", "env"] then .found .file else .notFound,
         fun _ => none⟩).2.probe (["t", "a"] ++ ["env"]) = .found .file)
    ∧ (∀ n, (n, ["t", "a"] ++ ["env"])
        ∉ (remove_symlinks_from_worktrees [⟨"a", ["t", "a"], "b"⟩] ["env"]
            ⟨fun p => if p = ["t", "a", "env"] then .found .file else .notFound,
             fun _ => none⟩).1.removed) := by
  have h := (removeSymlinks_only_removes_symlinks [⟨"a", ["t", "a"], "b"⟩] ["env"]
      ⟨fun p => if p = ["t", "a", "env"] then .found .file else .notFound,
       fun _ => none⟩).2.1 ⟨"a", ["t", "a"], "b"⟩ (by simp) FileType.file
    (by simp) (by norm_num)
  exact ⟨h.1, h.2.1⟩

/-! ### Link-engine invariants (C4, C5, C8, C9) -/

theorem incomp_no_common_extension {a b p : FsPath} (h : pathsIncomp a b)
    (ha : a <+: p) (hb : b <+: p) : False := by
  rcases List.prefix_or_prefix_of_prefix ha hb with hd | hd
  · exact h.1 hd
  · exact h.2 hd

theorem incomp_extends {a b : FsPath} (h : pathsIncomp a b) {p : FsPath}
    (x : FsPath) (hp : a <+: p) : pathsIncomp p (b ++ x) := by
  constructor
  · intro hpb
    have hbb : b <+: b ++ x := List.prefix_append b x
    rcases List.prefix_or_prefix_of_prefix hpb hbb with hc | hc
    · exact h.1 (hp.trans hc)
    · exact incomp_no_common_extension h hp hc
  · intro hbp
    exact incomp_no_common_extension h hp ((List.prefix_append b x).trans hbp)

theorem link_entry_linkErr (fs : Fsm) (src dst : FsPath) (lt : LinkType) :
    (link_entry fs src dst lt).1.linkErr = fs.linkErr := by
  simp only [link_entry]
  split <;> (try split) <;> (try split) <;> rfl

theorem fsCreateDirAll_outside (m : FsPath → Option Node) (d p : FsPath)
    (h : ¬ p <+: d) : fsCreateDirAll m d p = m p := by
  have : p.isPrefixOf d = false := by
    rw [isPrefixOf_eq_decide]; simpa using h
  simp [fsCreateDirAll, this]

theorem fsCreateDirAll_keeps (m : FsPath → Option Node) (d p : FsPath)
    (h : m p ≠ none) : fsCreateDirAll m d p = m p := by
  have : (m p).isNone = false := by
    rcases hm : m p with _ | v
    · exact absurd hm h
    · rfl
  simp [fsCreateDirAll, this]

theorem linkParentDirs_outside (fs : Fsm) (dst p : FsPath) (h1 : ¬ p <+: dst) :
    linkParentDirs fs dst p = fs.node p := by
  rw [linkParentDirs]
  split
  · rfl
  · exact fsCreateDirAll_outside _ _ _
      (fun hc => h1 (hc.trans (List.dropLast_prefix dst)))

theorem linkRemoveExisting_outside (m : FsPath → Option Node) (dst p : FsPath)
    (hpd : p ≠ dst) (h2 : ¬ dst <+: p) :
    linkRemoveExisting m dst p = m p := by
  have hdp : dst.isPrefixOf p = false := by
    rw [isPrefixOf_eq_decide]; simpa using h2
  rw [linkRemoveExisting]
  rcases m dst with _ | n
  · rfl
  · cases n <;> simp [hdp, hpd]

/-- `link_entry` touches only the destination: at any path that neither
contains nor is contained in `dst`, the filesystem entry is unchanged. -/
theorem link_entry_node_outside (fs : Fsm) (src dst : FsPath) (lt : LinkType)
    (p : FsPath) (h1 : ¬ p <+: dst) (h2 : ¬ dst <+: p) :
    (link_entry fs src dst lt).1.node p = fs.node p := by
  have hpd : p ≠ dst := fun h => h2 (h ▸ List.prefix_refl p)
  have hdp : dst.isPrefixOf p = false := by
    rw [isPrefixOf_eq_decide]; simpa using h2
  have hm1 : linkRemoveExisting (linkParentDirs fs dst) dst p = fs.node p :=
    (linkRemoveExisting_outside _ _ _ hpd h2).trans
      (linkParentDirs_outside fs dst p h1)
  simp only [link_entry]
  split <;> (try split) <;> (try split) <;> simp_all [hpd, hdp, hm1]

theorem linkParentDirs_keeps (fs : Fsm) (dst p : FsPath) (h : fs.node p ≠ none) :
    linkParentDirs fs dst p = fs.node p := by
  rw [linkParentDirs]
  split
  · rfl
  · exact fsCreateDirAll_keeps _ _ _ h

/-- The outcome of one `link_entry` call is exactly the creation oracle at the
destination, provided (for a copy) the source still exists and is not inside
the destination being replaced. -/
theorem link_entry_outcome (fs : Fsm) (src dst : FsPath) (lt : LinkType)
    (hsrc : lt = LinkType.copy → (fs.node src ≠ none ∧ ¬ dst <+: src)) :
    (link_entry fs src dst lt).2 = fs.linkErr dst := by
  cases lt with
  | symlink =>
      simp only [link_entry]
      cases fs.linkErr dst <;> rfl
  | copy =>
      obtain ⟨hs, hd⟩ := hsrc rfl
      have hsd : src ≠ dst := fun h => hd (by rw [h])
      have hm1 : linkRemoveExisting (linkParentDirs fs dst) dst src = fs.node src :=
        (linkRemoveExisting_outside _ _ _ hsd hd).trans
          (linkParentDirs_keeps fs dst src hs)
      simp only [link_entry]
      rw [hm1]
      rcases hn : fs.node src with _ | n
      · exact absurd hn hs
      · cases n <;> rcases hl : fs.linkErr dst with _ | e <;> simp [hl]

theorem linkWorktreesGo_spec (ep : FsPath) (lt : LinkType) (src : FsPath)
    (wts : List Worktree) :
    ∀ fs : Fsm,
      (∀ w ∈ wts, pathsIncomp src (w.path ++ ep)) →
      fs.node src ≠ none →
      (linkWorktreesGo ep lt src wts fs).1.1
          = wts.filterMap (fun w =>
              if fs.linkErr (w.path ++ ep) = none then some (w.name, w.path ++ ep)
              else none)
      ∧ (linkWorktreesGo ep lt src wts fs).1.2
          = wts.filterMap (fun w =>
              match fs.linkErr (w.path ++ ep) with
              | some er => some (w.name, w.path ++ ep, er)
              | none => none)
      ∧ (linkWorktreesGo ep lt src wts fs).2.linkErr = fs.linkErr
      ∧ ∀ p, (∀ w ∈ wts, pathsIncomp p (w.path ++ ep)) →
          (linkWorktreesGo ep lt src wts fs).2.node p = fs.node p := by
  induction wts with
  | nil =>
    intro fs _ _
    exact ⟨rfl, rfl, rfl, fun p _ => rfl⟩
  | cons wt rest ih =>
    intro fs hinc hsrc
    have hwt : pathsIncomp src (wt.path ++ ep) := hinc wt (List.mem_cons_self wt rest)
    have hout : (link_entry fs src (wt.path ++ ep) lt).2
        = fs.linkErr (wt.path ++ ep) :=
      link_entry_outcome fs src (wt.path ++ ep) lt
        (fun _ => ⟨hsrc, hwt.2⟩)
    have herr : (link_entry fs src (wt.path ++ ep) lt).1.linkErr
        = fs.linkErr := link_entry_linkErr fs src (wt.path ++ ep) lt
    have hnode : ∀ p, pathsIncomp p (wt.path ++ ep) →
        (link_entry fs src (wt.path ++ ep) lt).1.node p = fs.node p := by
      intro p hp
      exact link_entry_node_outside fs src (wt.path ++ ep) lt p hp.1 hp.2
    have hsrc' : (link_entry fs src (wt.path ++ ep) lt).1.node src ≠ none := by
      rw [hnode src hwt]; exact hsrc
    obtain ⟨i1, i2, i3, i4⟩ :=
      ih (link_entry fs src (wt.path ++ ep) lt).1
        (fun w hw => hinc w (List.mem_cons_of_mem wt hw)) hsrc'
    have heq : linkWorktreesGo ep lt src (wt :: rest) fs
        = (match (link_entry fs src (wt.path ++ ep) lt).2 with
           | none =>
              (((wt.name, wt.path ++ ep) ::
                  (linkWorktreesGo ep lt src rest
                    (link_entry fs src (wt.path ++ ep) lt).1).1.1,
                (linkWorktreesGo ep lt src rest
                  (link_entry fs src (wt.path ++ ep) lt).1).1.2),
               (linkWorktreesGo ep lt src rest
                 (link_entry fs src (wt.path ++ ep) lt).1).2)
           | some er =>
              (((linkWorktreesGo ep lt src rest
                  (link_entry fs src (wt.path ++ ep) lt).1).1.1,
                (wt.name, wt.path ++ ep, er) ::
                  (linkWorktreesGo ep lt src rest
                    (link_entry fs src (wt.path ++ ep) lt).1).1.2),
               (linkWorktreesGo ep lt src rest
                 (link_entry fs src (wt.path ++ ep) lt).1).2)) := rfl
    rw [hout] at heq
    rw [herr] at i1 i2
    rcases hl : fs.linkErr (wt.path ++ ep) with _ | er <;> rw [hl] at heq <;>
      rw [heq] <;>
      exact ⟨by simp [List.filterMap_cons, hl, i1],
             by simp [List.filterMap_cons, hl, i2],
             i3.trans herr,
             fun p hp =>
               ((i4 p (fun w hw => hp w (List.mem_cons_of_mem wt hw))).trans
                 (hnode p (hp wt (List.mem_cons_self wt rest))))⟩

theorem linkEntriesGo_spec (root : FsPath) (wts : List Worktree)
    (entries : List FileEntry) :
    ∀ fs : Fsm,
      (∀ e ∈ entries, ∀ w ∈ wts, ∀ e' ∈ entries,
        pathsIncomp (root ++ e'.path) (w.path ++ e.path)) →
      (linkEntriesGo root wts entries fs).1.linked
          = (entries.filter
                (fun e => !(fs.node (root ++ e.path)).isNone)).flatMap
              (fun e => wts.filterMap (fun w =>
                if fs.linkErr (w.path ++ e.path) = none
                then some (w.name, w.path ++ e.path) else none))
      ∧ (linkEntriesGo root wts entries fs).1.failed
          = (entries.filter
                (fun e => !(fs.node (root ++ e.path)).isNone)).flatMap
              (fun e => wts.filterMap (fun w =>
                match fs.linkErr (w.path ++ e.path) with
                | some er => some (w.name, w.path ++ e.path, er)
                | none => none))
      ∧ (linkEntriesGo root wts entries fs).2.linkErr = fs.linkErr
      ∧ ∀ p, (∀ e ∈ entries, ∀ w ∈ wts, pathsIncomp p (w.path ++ e.path)) →
          (linkEntriesGo root wts entries fs).2.node p = fs.node p := by
  induction entries with
  | nil =>
    intro fs _
    exact ⟨rfl, rfl, rfl, fun p _ => rfl⟩
  | cons e rest ih =>
    intro fs hinc
    have hince : ∀ w ∈ wts, pathsIncomp (root ++ e.path) (w.path ++ e.path) :=
      fun w hw => hinc e (List.mem_cons_self e rest) w hw e (List.mem_cons_self e rest)
    have hincr : ∀ e1 ∈ rest, ∀ w ∈ wts, ∀ e' ∈ rest,
        pathsIncomp (root ++ e'.path) (w.path ++ e1.path) :=
      fun e1 h1 w hw e' h' => hinc e1 (List.mem_cons_of_mem e h1) w hw e'
        (List.mem_cons_of_mem e h')
    rcases hm : (fs.node (root ++ e.path)).isNone with _ | _
    · -- source present: fan out over all worktrees, then the remaining entries
      have hsrc : fs.node (root ++ e.path) ≠ none := by
        rcases hn : fs.node (root ++ e.path) with _ | v
        · rw [hn] at hm; cases hm
        · simp
      obtain ⟨s1, s2, s3, s4⟩ :=
        linkWorktreesGo_spec e.path e.link_type (root ++ e.path) wts fs hince hsrc
      obtain ⟨i1, i2, i3, i4⟩ :=
        ih (linkWorktreesGo e.path e.link_type (root ++ e.path) wts fs).2 hincr
      have hfe : rest.filter (fun e' =>
            !((linkWorktreesGo e.path e.link_type (root ++ e.path) wts fs).2.node
                (root ++ e'.path)).isNone)
          = rest.filter (fun e' => !(fs.node (root ++ e'.path)).isNone) :=
        List.filter_congr (fun e' he' => by
          rw [s4 (root ++ e'.path)
            (fun w hw => hinc e (List.mem_cons_self e rest) w hw e'
              (List.mem_cons_of_mem e he'))])
      rw [s3, hfe] at i1 i2
      have heq : linkEntriesGo root wts (e :: rest) fs
          = (⟨(linkWorktreesGo e.path e.link_type (root ++ e.path) wts fs).1.1
                ++ (linkEntriesGo root wts rest
                    (linkWorktreesGo e.path e.link_type (root ++ e.path) wts fs).2).1.linked,
              (linkWorktreesGo e.path e.link_type (root ++ e.path) wts fs).1.2
                ++ (linkEntriesGo root wts rest
                    (linkWorktreesGo e.path e.link_type (root ++ e.path) wts fs).2).1.failed⟩,
             (linkEntriesGo root wts rest
               (linkWorktreesGo e.path e.link_type (root ++ e.path) wts fs).2).2) := by
        simp only [linkEntriesGo, hm]
        rfl
      rw [heq]
      refine ⟨?_, ?_, i3.trans s3, fun p hp =>
        (i4 p (fun e1 h1 w hw => hp e1 (List.mem_cons_of_mem e h1) w hw)).trans
          (s4 p (fun w hw => hp e (List.mem_cons_self e rest) w hw))⟩
      · simp only [List.filter_cons, hm, Bool.not_false, if_true, List.flatMap_cons]
        rw [s1, i1]
      · simp only [List.filter_cons, hm, Bool.not_false, if_true, List.flatMap_cons]
        rw [s2, i2]
    · -- source missing: the entry is skipped for all worktrees
      have heq : linkEntriesGo root wts (e :: rest) fs
          = linkEntriesGo root wts rest fs := by
        simp [linkEntriesGo, hm]
      obtain ⟨i1, i2, i3, i4⟩ := ih fs hincr
      rw [heq]
      refine ⟨?_, ?_, i3, fun p hp =>
        i4 p (fun e1 h1 w hw => hp e1 (List.mem_cons_of_mem e h1) w hw)⟩
      · simp only [List.filter_cons, hm, Bool.not_true, if_false]
        exact i1
      · simp only [List.filter_cons, hm, Bool.not_true, if_false]
        exact i2

theorem linkReport_ext {r r' : LinkReport} (h1 : r.linked = r'.linked)
    (h2 : r.failed = r'.failed) : r = r' := by
  cases r; cases r'; simp_all

theorem linkEntries_char :
    ∀ (root : FsPath) (entries : List FileEntry) (wts : List Worktree) (fs : Fsm),
      (∀ e ∈ entries, ∀ w ∈ wts, ∀ e' ∈ entries,
        pathsIncomp (root ++ e'.path) (w.path ++ e.path)) →
      (link_entries_to_worktrees root entries wts fs).1.linked
          = (entries.filter
                (fun e => !(fs.node (root ++ e.path)).isNone)).flatMap
              (fun e => wts.filterMap (fun w =>
                if fs.linkErr (w.path ++ e.path) = none
                then some (w.name, w.path ++ e.path) else none))
      ∧ (link_entries_to_worktrees root entries wts fs).1.failed
          = (entries.filter
                (fun e => !(fs.node (root ++ e.path)).isNone)).flatMap
              (fun e => wts.filterMap (fun w =>
                match fs.linkErr (w.path ++ e.path) with
                | some er => some (w.name, w.path ++ e.path, er)
                | none => none)) := by
  intro root entries wts fs hinc
  rcases hw : wts.isEmpty with _ | _
  · rcases he : entries.isEmpty with _ | _
    · obtain ⟨i1, i2, _, _⟩ := linkEntriesGo_spec root wts entries fs hinc
      rw [link_entries_to_worktrees, hw, he]
      exact ⟨i1, i2⟩
    · rw [List.isEmpty_iff] at he
      subst he
      simp [link_entries_to_worktrees]
  · rw [List.isEmpty_iff] at hw
    subst hw
    constructor <;> simp [link_entries_to_worktrees]

/-- **C4**: the fan-out report is a complete, order-preserving partition of
the attempted pairs — for every entry whose source exists, every worktree is
attempted, and the pair lands in exactly one of the two lists, decided by
that destination's own creation outcome, never both and never omitted; a
failing pair does not prevent any later pair from being attempted (each pair
appears regardless of the outcomes before it).  The hypothesis states that no
link destination overlaps any entry source as a path — true of the on-disk
layout, where sources live directly in the repository root and destinations
under the worktree directories. -/
theorem linkEntries_report_partition :
    ∀ (root : FsPath) (entries : List FileEntry) (wts : List Worktree) (fs : Fsm),
      (∀ e ∈ entries, ∀ w ∈ wts, ∀ e' ∈ entries,
        pathsIncomp (root ++ e'.path) (w.path ++ e.path)) →
      (link_entries_to_worktrees root entries wts fs).1.linked
          = (entries.filter
                (fun e => !(fs.node (root ++ e.path)).isNone)).flatMap
              (fun e => wts.filterMap (fun w =>
                if fs.linkErr (w.path ++ e.path) = none
                then some (w.name, w.path ++ e.path) else none))
      ∧ (link_entries_to_worktrees root entries wts fs).1.failed
          = (entries.filter
                (fun e => !(fs.node (root ++ e.path)).isNone)).flatMap
              (fun e => wts.filterMap (fun w =>
                match fs.linkErr (w.path ++ e.path) with
                | some er => some (w.name, w.path ++ e.path, er)
                | none => none)) :=
  linkEntries_char

/-- Witness: three worktrees where only the second destination's creation
fails — the report holds exactly the two successes (first and third, in
order) and exactly the one failure for the second. -/
theorem linkEntries_report_partition_witness :
    (link_entries_to_worktrees ["r"] [⟨["env"], LinkType.symlink⟩]
        [⟨"w1", ["t", "1"], "b1"⟩, ⟨"w2", ["t", "2"], "b2"⟩, ⟨"w3", ["t", "3"], "b3"⟩]
        ⟨fun p => if p = ["r", "env"] then some (.file 0) else none,
         fun p => if p = ["t", "2", "env"] then some "denied" else none⟩).1.linked
      = [("w1", ["t", "1", "env"]), ("w3", ["t", "3", "env"])]
    ∧ (link_entries_to_worktrees ["r"] [⟨["env"], LinkType.symlink⟩]
        [⟨"w1", ["t", "1"], "b1"⟩, ⟨"w2", ["t", "2"], "b2"⟩, ⟨"w3", ["t", "3"], "b3"⟩]
        ⟨fun p => if p = ["r", "env"] then some (.file 0) else none,
         fun p => if p = ["t", "2", "env"] then some "denied" else none⟩).1.failed
      = [("w2", ["t", "2", "env"], "denied")] := by
  have h := linkEntries_report_partition ["r"] [⟨["env"], LinkType.symlink⟩]
    [⟨"w1", ["t", "1"], "b1"⟩, ⟨"w2", ["t", "2"], "b2"⟩, ⟨"w3", ["t", "3"], "b3"⟩]
    ⟨fun p => if p = ["r", "env"] then some (.file 0) else none,
     fun p => if p = ["t", "2", "env"] then some "denied" else none⟩
    (by
      intro e he w hw e' he'
      simp only [List.mem_singleton] at he he'
      subst he
      subst he'
      simp [List.mem_cons] at hw
      rcases hw with rfl | rfl | rfl <;> decide)
  exact ⟨h.1.trans (by decide), h.2.trans (by decide)⟩

/-- **C9**: an entry whose source path is absent from the repository root is
skipped for all worktrees — the report (successes and failures alike) is
exactly the report of the entry list with all absent-source entries dropped,
so no pair for such an entry appears in either sequence while every other
entry is still processed; in isolation such an entry produces the empty
report and leaves the filesystem untouched. -/
theorem linkEntries_missing_source_skipped :
    ∀ (root : FsPath) (entries : List FileEntry) (wts : List Worktree) (fs : Fsm),
      (∀ e ∈ entries, ∀ w ∈ wts, ∀ e' ∈ entries,
        pathsIncomp (root ++ e'.path) (w.path ++ e.path)) →
      ((link_entries_to_worktrees root entries wts fs).1
          = (link_entries_to_worktrees root
              (entries.filter (fun e => !(fs.node (root ++ e.path)).isNone))
              wts fs).1)
      ∧ (∀ e ∈ entries, fs.node (root ++ e.path) = none →
          (link_entries_to_worktrees root [e] wts fs).1 = ⟨[], []⟩
          ∧ (link_entries_to_worktrees root [e] wts fs).2 = fs) := by
  intro root entries wts fs hinc
  constructor
  · obtain ⟨a1, a2⟩ := linkEntries_char root entries wts fs hinc
    obtain ⟨b1, b2⟩ := linkEntries_char root
      (entries.filter (fun e => !(fs.node (root ++ e.path)).isNone)) wts fs
      (fun e he w hw e' he' =>
        hinc e (List.mem_of_mem_filter he) w hw e' (List.mem_of_mem_filter he'))
    have hff : (entries.filter
          (fun e => !(fs.node (root ++ e.path)).isNone)).filter
          (fun e => !(fs.node (root ++ e.path)).isNone)
        = entries.filter (fun e => !(fs.node (root ++ e.path)).isNone) := by
      rw [List.filter_filter]
      exact List.filter_congr
        (fun a _ => by cases (fs.node (root ++ a.path)).isNone <;> rfl)
    rw [hff] at b1 b2
    exact linkReport_ext (a1.trans b1.symm) (a2.trans b2.symm)
  · intro e _ hme
    have hm : (fs.node (root ++ e.path)).isNone = true := by rw [hme]; rfl
    rcases hw : wts.isEmpty with _ | _
    · constructor <;> simp [link_entries_to_worktrees, hw, linkEntriesGo, hm]
    · constructor <;> simp [link_entries_to_worktrees, hw]

/-- Witness: with one worktree, an entry list holding one absent-source entry
and one present entry yields the same report as the present entry alone, and
the absent entry alone yields the empty report. -/
theorem linkEntries_missing_source_skipped_witness :
    ((link_entries_to_worktrees ["r"] [⟨["gone"], LinkType.copy⟩, ⟨["env"], LinkType.symlink⟩]
        [⟨"w1", ["t", "1"], "b1"⟩]
        ⟨fun p => if p = ["r", "env"] then some (.file 0) else none,
         fun _ => none⟩).1
      = (link_entries_to_worktrees ["r"]
          ([⟨["gone"], LinkType.copy⟩, ⟨["env"], LinkType.symlink⟩].filter
            (fun e => !((⟨fun p => if p = ["r", "env"] then some (.file 0) else none,
              fun _ => none⟩ : Fsm).node (["r"] ++ e.path)).isNone))
          [⟨"w1", ["t", "1"], "b1"⟩]
          ⟨fun p => if p = ["r", "env"] then some (.file 0) else none,
           fun _ => none⟩).1)
    ∧ (link_entries_to_worktrees ["r"] [⟨["gone"], LinkType.copy⟩]
        [⟨"w1", ["t", "1"], "b1"⟩]
        ⟨fun p => if p = ["r", "env"] then some (.file 0) else none,
         fun _ => none⟩).1 = ⟨[], []⟩ := by
  have h := linkEntries_missing_source_skipped ["r"]
    [⟨["gone"], LinkType.copy⟩, ⟨["env"], LinkType.symlink⟩]
    [⟨"w1", ["t", "1"], "b1"⟩]
    ⟨fun p => if p = ["r", "env"] then some (.file 0) else none, fun _ => none⟩
    (by
      intro e he w hw e' he'
      simp [List.mem_cons] at he he' hw
      subst hw
      rcases he with rfl | rfl <;> rcases he' with rfl | rfl <;> decide)
  refine ⟨h.1, ?_⟩
  have h2 := linkEntries_missing_source_skipped ["r"] [⟨["gone"], LinkType.copy⟩]
    [⟨"w1", ["t", "1"], "b1"⟩]
    ⟨fun p => if p = ["r", "env"] then some (.file 0) else none, fun _ => none⟩
    (by
      intro e he w hw e' he'
      simp [List.mem_cons] at he he' hw
      subst he
      subst he'
      subst hw
      decide)
  exact (h2.2 ⟨["gone"], LinkType.copy⟩ (by simp) (by decide)).1

/-! ### Idempotence of the link engine (C5) -/

theorem fsm_ext {a b : Fsm} (h1 : a.node = b.node) (h2 : a.linkErr = b.linkErr) :
    a = b := by
  cases a; cases b; simp_all

theorem region_not_parent {dst q : FsPath} (hd : dst ≠ []) (h : dst <+: q) :
    ¬ q <+: dst.dropLast := by
  intro hc
  have h1 := h.length_le
  have h2 := hc.length_le
  rw [List.length_dropLast] at h2
  have hpos : 0 < dst.length := List.length_pos.mpr hd
  omega

theorem parent_region_strict {dst q : FsPath} (hd : dst ≠ [])
    (h : q <+: dst.dropLast) : q ≠ dst ∧ ¬ dst <+: q := by
  have h2 := h.length_le
  rw [List.length_dropLast] at h2
  have hpos : 0 < dst.length := List.length_pos.mpr hd
  constructor
  · rintro rfl
    omega
  · intro hc
    have := hc.length_le
    omega

theorem linkRemoveExisting_at_dst (m : FsPath → Option Node) (dst : FsPath) :
    linkRemoveExisting m dst dst = none := by
  rw [linkRemoveExisting]
  rcases hm : m dst with _ | n
  · exact hm
  · cases n <;> simp [isPrefixOf_eq_decide, List.prefix_refl]

theorem linkRemoveExisting_of_none (m : FsPath → Option Node) (dst : FsPath)
    (h : m dst = none) : linkRemoveExisting m dst = m := by
  rw [linkRemoveExisting, h]

theorem linkParentDirs_beyond (fs : Fsm) (dst q : FsPath)
    (h : ¬ q <+: dst.dropLast) : linkParentDirs fs dst q = fs.node q := by
  rw [linkParentDirs]
  split
  · rfl
  · exact fsCreateDirAll_outside _ _ _ h

theorem linkParentDirs_at_dst (fs : Fsm) (dst : FsPath) :
    linkParentDirs fs dst dst = fs.node dst := by
  rcases hd : dst with _ | ⟨c, cs⟩
  · rfl
  · rw [← hd]
    exact linkParentDirs_beyond fs dst dst
      (region_not_parent (by rw [hd]; simp) (List.prefix_refl dst))

/-- Everything the removal step leaves strictly below `dst` on a coherent
filesystem is absent: either `dst` was a directory (removed recursively with
everything below it), or it was a single entry or missing — in which case
coherence says nothing hung below it in the first place. -/
theorem linkRemoveExisting_under (fs : Fsm) (dst : FsPath)
    (hco : FsCoherent fs.node) (t : FsPath) :
    linkRemoveExisting (linkParentDirs fs dst) dst (dst ++ t) = none := by
  rcases ht : t with _ | ⟨c, cs⟩
  · rw [List.append_nil]
    exact linkRemoveExisting_at_dst _ dst
  · rw [← ht]
    have htne : t ≠ [] := by rw [ht]; simp
    have hbey : ¬ (dst ++ t) <+: dst.dropLast := by
      intro hc
      have h2 := hc.length_le
      rw [List.length_dropLast, List.length_append] at h2
      have : t.length ≠ 0 := fun h => htne (List.length_eq_zero.mp h)
      omega
    have hout : linkParentDirs fs dst (dst ++ t) = fs.node (dst ++ t) :=
      linkParentDirs_beyond fs dst (dst ++ t) hbey
    have hnone : fs.node (dst ++ t) ≠ none → fs.node dst = some .dir := by
      intro hn
      exact hco dst t htne hn
    have hne : dst ++ t ≠ dst := by
      intro hc
      have := congrArg List.length hc
      rw [List.length_append] at this
      have : t.length ≠ 0 := fun h => htne (List.length_eq_zero.mp h)
      omega
    rw [linkRemoveExisting, linkParentDirs_at_dst]
    rcases hm : fs.node dst with _ | n
    · show linkParentDirs fs dst (dst ++ t) = none
      rw [hout]
      rcases hn : fs.node (dst ++ t) with _ | v
      · rfl
      · rw [hm] at hnone
        cases hnone (by rw [hn]; simp)
    · cases n with
      | dir =>
          have hpre : dst.isPrefixOf (dst ++ t) = true := by
            rw [isPrefixOf_eq_decide]
            simp [List.prefix_append]
          show (if dst.isPrefixOf (dst ++ t) = true then none
                else linkParentDirs fs dst (dst ++ t)) = none
          simp [hpre]
      | file c =>
          show (if dst ++ t = dst then none
                else linkParentDirs fs dst (dst ++ t)) = none
          rw [if_neg hne, hout]
          rcases hn : fs.node (dst ++ t) with _ | v
          · rfl
          · rw [hm] at hnone
            cases hnone (by rw [hn]; simp)
      | symlink tg =>
          show (if dst ++ t = dst then none
                else linkParentDirs fs dst (dst ++ t)) = none
          rw [if_neg hne, hout]
          rcases hn : fs.node (dst ++ t) with _ | v
          · rfl
          · rw [hm] at hnone
            cases hnone (by rw [hn]; simp)

/-- After a `link_entry` run, every strict ancestor of the destination exists
(the parent-directory step created it and no later step removes it), so the
second run's `create_dir_all` is a no-op. -/
theorem link_entry_parents (fs : Fsm) (src dst : FsPath) (lt : LinkType)
    (q : FsPath) (hd : dst ≠ []) (hq : q <+: dst.dropLast) :
    (link_entry fs src dst lt).1.node q ≠ none := by
  obtain ⟨hqd, hdq⟩ := parent_region_strict hd hq
  have hqp : q.isPrefixOf dst.dropLast = true := by
    rw [isPrefixOf_eq_decide]; simpa using hq
  have hmp : linkParentDirs fs dst q ≠ none := by
    rw [linkParentDirs, if_neg hd]
    show (if q.isPrefixOf dst.dropLast && (fs.node q).isNone then some .dir
          else fs.node q) ≠ none
    rcases hn : fs.node q with _ | v <;> simp [hqp, hn]
  have hmr : linkRemoveExisting (linkParentDirs fs dst) dst q
      = linkParentDirs fs dst q := linkRemoveExisting_outside _ _ _ hqd hdq
  have hdp : dst.isPrefixOf q = false := by
    rw [isPrefixOf_eq_decide]; simpa using hdq
  have hfinal : (link_entry fs src dst lt).1.node q
      = linkRemoveExisting (linkParentDirs fs dst) dst q := by
    simp only [link_entry]
    split <;> (try split) <;> (try split) <;> simp_all [hqd, hdp]
  rw [hfinal, hmr]
  exact hmp

/-- The parent-directory step of a second run changes nothing. -/
theorem linkParentDirs_after (fs : Fsm) (src dst : FsPath) (lt : LinkType) :
    linkParentDirs (link_entry fs src dst lt).1 dst
      = (link_entry fs src dst lt).1.node := by
  rcases hd : dst with _ | ⟨c, cs⟩
  · rfl
  · rw [← hd]
    have hdne : dst ≠ [] := by rw [hd]; simp
    funext q
    rw [linkParentDirs, if_neg hdne]
    by_cases hq : q <+: dst.dropLast
    · have hne := link_entry_parents fs src dst lt q hdne hq
      have hn : ((link_entry fs src dst lt).1.node q).isNone = false := by
        rcases hv : (link_entry fs src dst lt).1.node q with _ | v
        · exact absurd hv hne
        · rfl
      show (if q.isPrefixOf dst.dropLast
              && ((link_entry fs src dst lt).1.node q).isNone then some .dir
            else (link_entry fs src dst lt).1.node q) = _
      simp [hn]
    · exact fsCreateDirAll_outside _ _ _ hq

theorem linkRemoveExisting_of_some (m : FsPath → Option Node) (dst : FsPath)
    (n : Node) (hn : n ≠ .dir) (h : m dst = some n) :
    linkRemoveExisting m dst = fun q => if q = dst then none else m q := by
  rw [linkRemoveExisting, h]
  cases n with
  | dir => exact absurd rfl hn
  | file c => rfl
  | symlink t => rfl

theorem linkRemoveExisting_of_dir (m : FsPath → Option Node) (dst : FsPath)
    (h : m dst = some .dir) :
    linkRemoveExisting m dst = fun q => if dst.isPrefixOf q then none else m q := by
  rw [linkRemoveExisting, h]

/-- **C5**: `link_entry` is idempotent — on a coherent filesystem (no entry
hangs below a non-directory), running the operation twice with identical
source, destination, and link type produces exactly the same result (final
filesystem *and* outcome) as running it once: the second run finds whatever
the first run left at the destination (file, directory, or symlink, probed
without following symlinks), replaces it instead of failing with an
already-exists error, and reproduces the same state. -/
theorem link_entry_idempotent :
    ∀ (fs : Fsm) (src dst : FsPath) (lt : LinkType),
      FsCoherent fs.node →
      link_entry (link_entry fs src dst lt).1 src dst lt
        = link_entry fs src dst lt := by
  intro fs src dst lt hco
  have hE := linkParentDirs_after fs src dst lt
  have hLE := link_entry_linkErr fs src dst lt
  have hC : linkRemoveExisting (linkParentDirs fs dst) dst dst = none :=
    linkRemoveExisting_at_dst _ dst
  cases lt with
  | symlink =>
    rcases hl : fs.linkErr dst with _ | e
    · -- creation succeeds in both runs
      have h1 : link_entry fs src dst .symlink
          = ({ fs with node := fun q => if q = dst then some (.symlink src)
                 else linkRemoveExisting (linkParentDirs fs dst) dst q }, none) := by
        simp [link_entry, hl]
      generalize hR : link_entry fs src dst LinkType.symlink = R1 at h1 hE hLE ⊢
      have hNd : R1.1.node dst = some (.symlink src) := by
        rw [h1]; simp
      have hRem : linkRemoveExisting R1.1.node dst
          = fun q => if q = dst then none else R1.1.node q :=
        linkRemoveExisting_of_some _ dst (.symlink src) (by simp) hNd
      have h2 : link_entry R1.1 src dst .symlink
          = ({ R1.1 with
                node := fun q => if q = dst then some (.symlink src)
                  else if q = dst then none else R1.1.node q }, none) := by
        simp only [link_entry, hE, hRem, hLE, hl]
      rw [h2]
      refine Prod.ext ?_ ?_
      · refine fsm_ext ?_ rfl
        show (fun q => if q = dst then some (.symlink src)
            else if q = dst then none else R1.1.node q) = R1.1.node
        funext q
        by_cases hq : q = dst
        · subst hq
          rw [if_pos rfl, hNd]
        · rw [if_neg hq, if_neg hq]
      · show none = R1.2
        rw [h1]
    · -- creation fails identically in both runs; the removal already happened
      have h1 : link_entry fs src dst .symlink
          = ({ fs with node := linkRemoveExisting (linkParentDirs fs dst) dst },
             some e) := by
        simp [link_entry, hl]
      generalize hR : link_entry fs src dst LinkType.symlink = R1 at h1 hE hLE ⊢
      have hNd : R1.1.node dst = none := by
        rw [h1]; exact hC
      have hRem : linkRemoveExisting R1.1.node dst = R1.1.node :=
        linkRemoveExisting_of_none _ dst hNd
      have h2 : link_entry R1.1 src dst .symlink
          = ({ R1.1 with node := R1.1.node }, some e) := by
        simp only [link_entry, hE, hRem, hLE, hl]
      rw [h2]
      refine Prod.ext (fsm_ext rfl rfl) ?_
      show some e = R1.2
      rw [h1]
  | copy =>
    rcases hsrc : linkRemoveExisting (linkParentDirs fs dst) dst src with _ | n
    · -- the source is gone once the destination was removed: both runs fail alike
      have h1 : link_entry fs src dst .copy
          = ({ fs with node := linkRemoveExisting (linkParentDirs fs dst) dst },
             some "Failed to copy: source does not exist") := by
        simp [link_entry, hsrc]
      generalize hR : link_entry fs src dst LinkType.copy = R1 at h1 hE hLE ⊢
      have hNd : R1.1.node dst = none := by rw [h1]; exact hC
      have hNs : R1.1.node src = none := by rw [h1]; exact hsrc
      have hRem : linkRemoveExisting R1.1.node dst = R1.1.node :=
        linkRemoveExisting_of_none _ dst hNd
      have h2 : link_entry R1.1 src dst .copy
          = ({ R1.1 with node := R1.1.node },
             some "Failed to copy: source does not exist") := by
        simp only [link_entry, hE, hRem, hNs]
      rw [h2]
      refine Prod.ext (fsm_ext rfl rfl) ?_
      show some _ = R1.2
      rw [h1]
    · cases n with
      | dir =>
        rcases hl : fs.linkErr dst with _ | e
        · -- recursive copy succeeds in both runs
          have h1 : link_entry fs src dst .copy
              = ({ fs with node := fun q =>
                     if dst.isPrefixOf q then
                       (linkRemoveExisting (linkParentDirs fs dst) dst
                         (src ++ q.drop dst.length))
                     else linkRemoveExisting (linkParentDirs fs dst) dst q },
                 none) := by
            simp [link_entry, hsrc, hl]
          have hnds : ¬ dst <+: src := by
            intro hds
            obtain ⟨t, rfl⟩ := hds
            rw [linkRemoveExisting_under fs dst hco t] at hsrc
            cases hsrc
          have hndsB : dst.isPrefixOf src = false := by
            rw [isPrefixOf_eq_decide]; simpa using hnds
          have hU : ∀ t, linkRemoveExisting (linkParentDirs fs dst) dst (dst ++ t)
              = none := linkRemoveExisting_under fs dst hco
          generalize hR : link_entry fs src dst LinkType.copy = R1 at h1 hE hLE ⊢
          have hNd : R1.1.node dst = some .dir := by
            rw [h1]
            show (if dst.isPrefixOf dst then
                linkRemoveExisting (linkParentDirs fs dst) dst
                  (src ++ dst.drop dst.length)
              else linkRemoveExisting (linkParentDirs fs dst) dst dst) = some .dir
            have hdd : dst.isPrefixOf dst = true := by
              rw [isPrefixOf_eq_decide]; simp
            rw [hdd, if_pos rfl, List.drop_length, List.append_nil]
            exact hsrc
          have hNs : R1.1.node src = some .dir := by
            rw [h1]
            show (if dst.isPrefixOf src then
                linkRemoveExisting (linkParentDirs fs dst) dst
                  (src ++ src.drop dst.length)
              else linkRemoveExisting (linkParentDirs fs dst) dst src) = some .dir
            rw [hndsB]
            simp only [Bool.false_eq_true, if_false]
            exact hsrc
          have hRem : linkRemoveExisting R1.1.node dst
              = fun q => if dst.isPrefixOf q then none else R1.1.node q :=
            linkRemoveExisting_of_dir _ dst hNd
          have h2 : link_entry R1.1 src dst .copy
              = ({ R1.1 with node := fun q =>
                     if dst.isPrefixOf q then
                       (if dst.isPrefixOf (src ++ q.drop dst.length) then none
                        else R1.1.node (src ++ q.drop dst.length))
                     else (if dst.isPrefixOf q then none else R1.1.node q) },
                 none) := by
            simp only [link_entry, hE, hRem, hLE, hl, hndsB, hNs,
              Bool.false_eq_true, if_false]
          rw [h2]
          refine Prod.ext ?_ ?_
          · refine fsm_ext ?_ rfl
            funext q
            show (if dst.isPrefixOf q then
                (if dst.isPrefixOf (src ++ q.drop dst.length) then none
                 else R1.1.node (src ++ q.drop dst.length))
              else (if dst.isPrefixOf q then none else R1.1.node q)) = R1.1.node q
            by_cases hq : dst <+: q
            · obtain ⟨s, rfl⟩ := hq
              have hqB : dst.isPrefixOf (dst ++ s) = true := by
                rw [isPrefixOf_eq_decide]; simp [List.prefix_append]
              rw [hqB]
              simp only [if_true, List.drop_left]
              have hRq : R1.1.node (dst ++ s)
                  = linkRemoveExisting (linkParentDirs fs dst) dst (src ++ s) := by
                rw [h1]
                show (if dst.isPrefixOf (dst ++ s) then
                    linkRemoveExisting (linkParentDirs fs dst) dst
                      (src ++ (dst ++ s).drop dst.length)
                  else linkRemoveExisting (linkParentDirs fs dst) dst (dst ++ s))
                    = _
                rw [hqB]
                simp [List.drop_left]
              by_cases hss : dst <+: src ++ s
              · have hssB : dst.isPrefixOf (src ++ s) = true := by
                  rw [isPrefixOf_eq_decide]; simpa using hss
                rw [hssB]
                simp only [if_true]
                obtain ⟨u, hu⟩ := hss
                rw [hRq, ← hu, hU u]
              · have hssB : dst.isPrefixOf (src ++ s) = false := by
                  rw [isPrefixOf_eq_decide]; simpa using hss
                rw [hssB]
                simp only [Bool.false_eq_true, if_false]
                have hval : R1.1.node (src ++ s)
                    = linkRemoveExisting (linkParentDirs fs dst) dst (src ++ s) := by
                  rw [h1]
                  show (if dst.isPrefixOf (src ++ s) = true then
                      linkRemoveExisting (linkParentDirs fs dst) dst
                        (src ++ (src ++ s).drop dst.length)
                    else linkRemoveExisting (linkParentDirs fs dst) dst (src ++ s))
                      = _
                  rw [hssB]
                  simp
                rw [hRq, hval]
            · have hqB : dst.isPrefixOf q = false := by
                rw [isPrefixOf_eq_decide]; simpa using hq
              rw [hqB]
              simp only [Bool.false_eq_true, if_false]
          · show none = R1.2
            rw [h1]
        · -- creation fails identically in both runs
          have h1 : link_entry fs src dst .copy
              = ({ fs with node := linkRemoveExisting (linkParentDirs fs dst) dst },
                 some e) := by
            simp [link_entry, hsrc, hl]
          generalize hR : link_entry fs src dst LinkType.copy = R1 at h1 hE hLE ⊢
          have hNd : R1.1.node dst = none := by rw [h1]; exact hC
          have hNs : R1.1.node src = some .dir := by rw [h1]; exact hsrc
          have hRem : linkRemoveExisting R1.1.node dst = R1.1.node :=
            linkRemoveExisting_of_none _ dst hNd
          have h2 : link_entry R1.1 src dst .copy
              = ({ R1.1 with node := R1.1.node }, some e) := by
            simp only [link_entry, hE, hRem, hNs, hLE, hl]
          rw [h2]
          refine Prod.ext (fsm_ext rfl rfl) ?_
          show some e = R1.2
          rw [h1]
      | file c =>
        rcases hl : fs.linkErr dst with _ | e
        · -- single-node copy succeeds in both runs
          have hsd : src ≠ dst := by
            intro h
            rw [h, hC] at hsrc
            cases hsrc
          have h1 : link_entry fs src dst .copy
              = ({ fs with node := fun q =>
                     if q = dst then some (Node.file c)
                     else linkRemoveExisting (linkParentDirs fs dst) dst q },
                 none) := by
            simp [link_entry, hsrc, hl]
          generalize hR : link_entry fs src dst LinkType.copy = R1 at h1 hE hLE ⊢
          have hNd : R1.1.node dst = some (Node.file c) := by
            rw [h1]; simp
          have hNs : R1.1.node src = some (Node.file c) := by
            rw [h1]
            show (if src = dst then some (Node.file c)
                else linkRemoveExisting (linkParentDirs fs dst) dst src)
                = some (Node.file c)
            rw [if_neg hsd]
            exact hsrc
          have hRem : linkRemoveExisting R1.1.node dst
              = fun q => if q = dst then none else R1.1.node q :=
            linkRemoveExisting_of_some _ dst (Node.file c) (by simp) hNd
          have hNs2 : (fun q => if q = dst then none else R1.1.node q) src
              = some (Node.file c) := by
            show (if src = dst then none else R1.1.node src) = _
            rw [if_neg hsd]
            exact hNs
          have h2 : link_entry R1.1 src dst .copy
              = ({ R1.1 with node := fun q =>
                     if q = dst then some (Node.file c)
                     else if q = dst then none else R1.1.node q }, none) := by
            simp only [link_entry, hE, hRem, hNs2, hLE, hl]
          rw [h2]
          refine Prod.ext ?_ ?_
          · refine fsm_ext ?_ rfl
            funext q
            show (if q = dst then some (Node.file c)
                else if q = dst then none else R1.1.node q) = R1.1.node q
            by_cases hq : q = dst
            · subst hq
              rw [if_pos rfl, hNd]
            · rw [if_neg hq, if_neg hq]
          · show none = R1.2
            rw [h1]
        · -- creation fails identically in both runs
          have h1 : link_entry fs src dst .copy
              = ({ fs with node := linkRemoveExisting (linkParentDirs fs dst) dst },
                 some e) := by
            simp [link_entry, hsrc, hl]
          generalize hR : link_entry fs src dst LinkType.copy = R1 at h1 hE hLE ⊢
          have hNd : R1.1.node dst = none := by rw [h1]; exact hC
          have hNs : R1.1.node src = some (Node.file c) := by rw [h1]; exact hsrc
          have hRem : linkRemoveExisting R1.1.node dst = R1.1.node :=
            linkRemoveExisting_of_none _ dst hNd
          have h2 : link_entry R1.1 src dst .copy
              = ({ R1.1 with node := R1.1.node }, some e) := by
            simp only [link_entry, hE, hRem, hNs, hLE, hl]
          rw [h2]
          refine Prod.ext (fsm_ext rfl rfl) ?_
          show some e = R1.2
          rw [h1]
      | symlink tg =>
        rcases hl : fs.linkErr dst with _ | e
        · -- single-node copy succeeds in both runs
          have hsd : src ≠ dst := by
            intro h
            rw [h, hC] at hsrc
            cases hsrc
          have h1 : link_entry fs src dst .copy
              = ({ fs with node := fun q =>
                     if q = dst then some (Node.symlink tg)
                     else linkRemoveExisting (linkParentDirs fs dst) dst q },
                 none) := by
            simp [link_entry, hsrc, hl]
          generalize hR : link_entry fs src dst LinkType.copy = R1 at h1 hE hLE ⊢
          have hNd : R1.1.node dst = some (Node.symlink tg) := by
            rw [h1]; simp
          have hNs : R1.1.node src = some (Node.symlink tg) := by
            rw [h1]
            show (if src = dst then some (Node.symlink tg)
                else linkRemoveExisting (linkParentDirs fs dst) dst src)
                = some (Node.symlink tg)
            rw [if_neg hsd]
            exact hsrc
          have hRem : linkRemoveExisting R1.1.node dst
              = fun q => if q = dst then none else R1.1.node q :=
            linkRemoveExisting_of_some _ dst (Node.symlink tg) (by simp) hNd
          have hNs2 : (fun q => if q = dst then none else R1.1.node q) src
              = some (Node.symlink tg) := by
            show (if src = dst then none else R1.1.node src) = _
            rw [if_neg hsd]
            exact hNs
          have h2 : link_entry R1.1 src dst .copy
              = ({ R1.1 with node := fun q =>
                     if q = dst then some (Node.symlink tg)
                     else if q = dst then none else R1.1.node q }, none) := by
            simp only [link_entry, hE, hRem, hNs2, hLE, hl]
          rw [h2]
          refine Prod.ext ?_ ?_
          · refine fsm_ext ?_ rfl
            funext q
            show (if q = dst then some (Node.symlink tg)
                else if q = dst then none else R1.1.node q) = R1.1.node q
            by_cases hq : q = dst
            · subst hq
              rw [if_pos rfl, hNd]
            · rw [if_neg hq, if_neg hq]
          · show none = R1.2
            rw [h1]
        · -- creation fails identically in both runs
          have h1 : link_entry fs src dst .copy
              = ({ fs with node := linkRemoveExisting (linkParentDirs fs dst) dst },
                 some e) := by
            simp [link_entry, hsrc, hl]
          generalize hR : link_entry fs src dst LinkType.copy = R1 at h1 hE hLE ⊢
          have hNd : R1.1.node dst = none := by rw [h1]; exact hC
          have hNs : R1.1.node src = some (Node.symlink tg) := by rw [h1]; exact hsrc
          have hRem : linkRemoveExisting R1.1.node dst = R1.1.node :=
            linkRemoveExisting_of_none _ dst hNd
          have h2 : link_entry R1.1 src dst .copy
              = ({ R1.1 with node := R1.1.node }, some e) := by
            simp only [link_entry, hE, hRem, hNs, hLE, hl]
          rw [h2]
          refine Prod.ext (fsm_ext rfl rfl) ?_
          show some e = R1.2
          rw [h1]


/-- Witness: a root directory with one file `env`; symlinking it into
`t/env` twice equals doing it once. -/
theorem link_entry_idempotent_witness :
    link_entry
        (link_entry
          ⟨fun p => if p = [] then some .dir
              else if p = ["env"] then some (.file 1) else none,
           fun _ => none⟩
          ["env"] ["t", "env"] .symlink).1
        ["env"] ["t", "env"] .symlink
      = link_entry
          ⟨fun p => if p = [] then some .dir
              else if p = ["env"] then some (.file 1) else none,
           fun _ => none⟩
          ["env"] ["t", "env"] .symlink := by
  apply link_entry_idempotent
  intro p s hs hne
  by_cases h0 : p ++ s = []
  · exact absurd (List.append_eq_nil.mp h0).2 hs
  · by_cases h1 : p ++ s = ["env"]
    · have hp : p = [] := by
        rcases List.append_eq_cons_iff.mp h1 with ⟨hp, _⟩ | ⟨a', _, hrest⟩
        · exact hp
        · exact absurd (List.append_eq_nil.mp hrest.symm).2 hs
      subst hp
      rfl
    · refine absurd ?_ hne
      show (if p ++ s = [] then some Node.dir
          else if p ++ s = ["env"] then some (.file 1) else none) = none
      rw [if_neg h0, if_neg h1]

/-! ### Linking during worktree creation (C8) -/

theorem link_files_spec (root wtPath : FsPath) (files : List FileEntry) :
    ∀ fs : Fsm,
      (∀ e ∈ files, ∀ e' ∈ files,
        pathsIncomp (root ++ e'.path) (wtPath ++ e.path)) →
      (link_files root wtPath files fs
        = link_files root wtPath
            (files.filter (fun e => !(fs.node (root ++ e.path)).isNone)) fs)
      ∧ ((∀ e ∈ files, fs.linkErr (wtPath ++ e.path) = none) →
          (link_files root wtPath files fs).2 = none) := by
  induction files with
  | nil =>
    intro fs _
    exact ⟨rfl, fun _ => rfl⟩
  | cons e rest ih =>
    intro fs hinc
    have hincr : ∀ e1 ∈ rest, ∀ e' ∈ rest,
        pathsIncomp (root ++ e'.path) (wtPath ++ e1.path) :=
      fun e1 h1 e' h' => hinc e1 (List.mem_cons_of_mem e h1) e'
        (List.mem_cons_of_mem e h')
    rcases hm : (fs.node (root ++ e.path)).isNone with _ | _
    · -- source present
      have hsrc : fs.node (root ++ e.path) ≠ none := by
        rcases hn : fs.node (root ++ e.path) with _ | v
        · rw [hn] at hm; cases hm
        · simp
      have hee : pathsIncomp (root ++ e.path) (wtPath ++ e.path) :=
        hinc e (List.mem_cons_self e rest) e (List.mem_cons_self e rest)
      have hout : (link_entry fs (root ++ e.path) (wtPath ++ e.path) e.link_type).2
          = fs.linkErr (wtPath ++ e.path) :=
        link_entry_outcome _ _ _ _ (fun _ => ⟨hsrc, hee.2⟩)
      have herr : (link_entry fs (root ++ e.path) (wtPath ++ e.path)
            e.link_type).1.linkErr = fs.linkErr :=
        link_entry_linkErr _ _ _ _
      have hnode : ∀ e' ∈ rest,
          (link_entry fs (root ++ e.path) (wtPath ++ e.path) e.link_type).1.node
              (root ++ e'.path)
            = fs.node (root ++ e'.path) := by
        intro e' he'
        have hp : pathsIncomp (root ++ e'.path) (wtPath ++ e.path) :=
          hinc e (List.mem_cons_self e rest) e' (List.mem_cons_of_mem e he')
        exact link_entry_node_outside _ _ _ _ _ hp.1 hp.2
      have heqL : link_files root wtPath (e :: rest) fs
          = (match (link_entry fs (root ++ e.path) (wtPath ++ e.path)
                e.link_type).2 with
             | some msg =>
                ((link_entry fs (root ++ e.path) (wtPath ++ e.path)
                  e.link_type).1, some msg)
             | none =>
                link_files root wtPath rest
                  (link_entry fs (root ++ e.path) (wtPath ++ e.path)
                    e.link_type).1) := by
        simp only [link_files, hm]
        rfl
      have heqR : link_files root wtPath
            ((e :: rest).filter (fun e1 => !(fs.node (root ++ e1.path)).isNone)) fs
          = (match (link_entry fs (root ++ e.path) (wtPath ++ e.path)
                e.link_type).2 with
             | some msg =>
                ((link_entry fs (root ++ e.path) (wtPath ++ e.path)
                  e.link_type).1, some msg)
             | none =>
                link_files root wtPath
                  (rest.filter (fun e1 => !(fs.node (root ++ e1.path)).isNone))
                  (link_entry fs (root ++ e.path) (wtPath ++ e.path)
                    e.link_type).1) := by
        simp only [List.filter_cons, hm, Bool.not_false, if_true, link_files]
        rfl
      constructor
      · rw [heqL, heqR]
        rcases hl : (link_entry fs (root ++ e.path) (wtPath ++ e.path)
            e.link_type).2 with _ | msg
        · obtain ⟨j1, _⟩ := ih (link_entry fs (root ++ e.path) (wtPath ++ e.path)
            e.link_type).1 hincr
          rw [j1]
          have hfe : rest.filter (fun e1 =>
                !((link_entry fs (root ++ e.path) (wtPath ++ e.path)
                    e.link_type).1.node (root ++ e1.path)).isNone)
              = rest.filter (fun e1 => !(fs.node (root ++ e1.path)).isNone) :=
            List.filter_congr (fun e1 h1 => by rw [hnode e1 h1])
          rw [hfe]
        · rfl
      · intro hall
        rw [heqL]
        have hl : (link_entry fs (root ++ e.path) (wtPath ++ e.path)
            e.link_type).2 = none := by
          rw [hout]
          exact hall e (List.mem_cons_self e rest)
        rw [hl]
        obtain ⟨_, j2⟩ := ih (link_entry fs (root ++ e.path) (wtPath ++ e.path)
          e.link_type).1 hincr
        exact j2 (fun e1 h1 => by
          rw [herr]
          exact hall e1 (List.mem_cons_of_mem e h1))
    · -- source absent: logged and skipped, not fatal
      have heq : link_files root wtPath (e :: rest) fs
          = link_files root wtPath rest fs := by
        simp [link_files, hm]
      obtain ⟨j1, j2⟩ := ih fs hincr
      rw [heq]
      constructor
      · rw [j1]
        simp [List.filter_cons, hm]
      · intro hall
        exact j2 (fun e1 h1 => hall e1 (List.mem_cons_of_mem e h1))

/-- **C8 counterexample**: the claim says no single entry's linking outcome is
fatal to `addWorktree`.  It is: with one configured entry whose link creation
fails, `link_files` propagates the error (the `?` operator) and `add_worktree`
returns that error instead of the new worktree path. -/
theorem addWorktree_link_failure_fatal_counterexample :
    (add_worktree ["r"] "w" none [⟨["env"], LinkType.symlink⟩] false
        (fun _ => true) (fun _ => none)
        ⟨fun p => if p = ["r", "env"] then some (.file 0) else none,
         fun p => if p = ["r", ".epi", "trees", "w", "env"]
           then some "denied" else none⟩).1.1
      = .error "denied" := by
  rfl

/-- **C8 (amended)**: after the VCS worktree-add command succeeds,
`add_worktree` runs the link engine over the configured entries in order; an
entry whose source file is absent is logged and skipped and is not fatal (the
run is identical to the run on the list with absent-source entries dropped);
but a *failing* link operation is fatal — its error propagates and aborts —
so `add_worktree` returns the new worktree path exactly when no attempted
link fails, and returns the link error otherwise (see the counterexample for
the failing case). -/
theorem addWorktree_links_after_add :
    ∀ (root : FsPath) (name : String) (branch : Option String)
      (files : List FileEntry) (branches : String → Bool) (fs : Fsm),
      (∀ e ∈ files, ∀ e' ∈ files,
        pathsIncomp (root ++ e'.path) ((get_trees_dir root ++ [name]) ++ e.path)) →
      (link_files root (get_trees_dir root ++ [name]) files fs
        = link_files root (get_trees_dir root ++ [name])
            (files.filter (fun e => !(fs.node (root ++ e.path)).isNone)) fs)
      ∧ ((∀ e ∈ files,
            fs.linkErr ((get_trees_dir root ++ [name]) ++ e.path) = none) →
          (add_worktree root name branch files false branches (fun _ => none)
              fs).1.1
            = .ok (get_trees_dir root ++ [name])) := by
  intro root name branch files branches fs hinc
  obtain ⟨h1, h2⟩ := link_files_spec root (get_trees_dir root ++ [name]) files fs hinc
  refine ⟨h1, fun hall => ?_⟩
  have hlf := h2 hall
  rcases branch with _ | b
  · simp only [add_worktree]
    split
    · next h => simp at h
    · rw [hlf]
  · simp only [add_worktree]
    split
    · next h => simp at h
    · rw [hlf]

/-- Witness: one entry `env` present at the root, its link into the new
worktree succeeding — `add_worktree` returns the new path, and a second
absent-source entry is skipped without affecting the run. -/
theorem addWorktree_links_after_add_witness :
    (link_files ["r"] (get_trees_dir ["r"] ++ ["w"])
        [⟨["gone"], LinkType.copy⟩, ⟨["env"], LinkType.symlink⟩]
        ⟨fun p => if p = ["r", "env"] then some (.file 0) else none,
         fun _ => none⟩
      = link_files ["r"] (get_trees_dir ["r"] ++ ["w"])
          ([⟨["gone"], LinkType.copy⟩, ⟨["env"], LinkType.symlink⟩].filter
            (fun e => !((⟨fun p => if p = ["r", "env"] then some (.file 0) else none,
                fun _ => none⟩ : Fsm).node (["r"] ++ e.path)).isNone))
          ⟨fun p => if p = ["r", "env"] then some (.file 0) else none,
           fun _ => none⟩)
    ∧ (add_worktree ["r"] "w" none
        [⟨["gone"], LinkType.copy⟩, ⟨["env"], LinkType.symlink⟩] false
        (fun _ => true) (fun _ => none)
        ⟨fun p => if p = ["r", "env"] then some (.file 0) else none,
         fun _ => none⟩).1.1
      = .ok (get_trees_dir ["r"] ++ ["w"]) := by
  have h := addWorktree_links_after_add ["r"] "w" none
    [⟨["gone"], LinkType.copy⟩, ⟨["env"], LinkType.symlink⟩]
    (fun _ => true)
    ⟨fun p => if p = ["r", "env"] then some (.file 0) else none, fun _ => none⟩
    (by
      intro e he e' he'
      simp [List.mem_cons] at he he'
      rcases he with rfl | rfl <;> rcases he' with rfl | rfl <;> decide)
  exact ⟨h.1, h.2 (fun e he => rfl)⟩

/-! ### Importing foreign worktrees (C6) -/

theorem unique_import_path_spec (occ : List FsPath) (td : FsPath) (base : String)
    (hb : base ≠ "") :
    ((td ++ [base]) ∉ occ → unique_import_path occ td base = td ++ [base])
    ∧ ((td ++ [base]) ∈ occ → (td ++ [base ++ "-2"]) ∉ occ →
        unique_import_path occ td base = td ++ [base ++ "-2"]) := by
  have hbase : (if base = "" then "worktree" else base) = base := if_neg hb
  have hc1 : importCandidate td base 1 = td ++ [base ++ "-2"] := by
    show td ++ [base ++ "-" ++ toString 2] = td ++ [base ++ "-2"]
    have hs : ("-" ++ toString 2 : String) = "-2" := by decide
    rw [String.append_assoc, hs]
  constructor
  · intro h
    have hcont : occ.contains (td ++ [base]) = false := by
      rcases hc : occ.contains (td ++ [base]) with _ | _
      · rfl
      · exact absurd (List.elem_iff.mp hc) h
    have hp0 : (fun i => !occ.contains (importCandidate td base i)) 0 = true := by
      show (!occ.contains (td ++ [base])) = true
      rw [hcont]
      rfl
    have hfind : (List.range (occ.length + 1)).find?
        (fun i => !occ.contains (importCandidate td base i)) = some 0 := by
      rw [List.range_succ_eq_map]
      exact List.find?_cons_of_pos _ hp0
    rw [unique_import_path, hbase, hfind]
    rfl
  · intro h1 h2
    have hcont1 : occ.contains (td ++ [base]) = true := List.elem_iff.mpr h1
    have hcont2 : occ.contains (td ++ [base ++ "-2"]) = false := by
      rcases hc : occ.contains (td ++ [base ++ "-2"]) with _ | _
      · rfl
      · exact absurd (List.elem_iff.mp hc) h2
    obtain ⟨k, hk⟩ : ∃ k, occ.length = k + 1 := by
      have := List.length_pos.mpr (List.ne_nil_of_mem h1)
      exact ⟨occ.length - 1, by omega⟩
    have hp0 : ¬ ((fun i => !occ.contains (importCandidate td base i)) 0 = true) := by
      show ¬ ((!occ.contains (td ++ [base])) = true)
      rw [hcont1]
      simp
    have hp1 : (fun i => !occ.contains (importCandidate td base i)) 1 = true := by
      show (!occ.contains (importCandidate td base 1)) = true
      rw [hc1, hcont2]
      rfl
    have hfind : (List.range (occ.length + 1)).find?
        (fun i => !occ.contains (importCandidate td base i)) = some 1 := by
      rw [hk, List.range_succ_eq_map, List.range_succ_eq_map, List.map_cons]
      exact (@List.find?_cons_of_neg Nat
          (fun i => !occ.contains (importCandidate td base i)) 0 _ hp0).trans
        (@List.find?_cons_of_pos Nat
          (fun i => !occ.contains (importCandidate td base i)) (Nat.succ 0) _ hp1)
    rw [unique_import_path, hbase, hfind]
    exact hc1

theorem importGo_spec (root : FsPath) (moveErr : FsPath → FsPath → Option String)
    (relinkRes : String → Option String) (raw : List GitWorktree) :
    ∀ occ : List FsPath,
      (importGo root moveErr relinkRes raw occ).skipped
          = raw.filterMap (fun wt =>
              if wt.path = root then some ⟨wt.path, "main worktree"⟩
              else if (get_trees_dir root).isPrefixOf wt.path then
                some ⟨wt.path, "already managed"⟩
              else none)
      ∧ (importGo root moveErr relinkRes raw occ).moved.length
          + (importGo root moveErr relinkRes raw occ).skipped.length
          + (importGo root moveErr relinkRes raw occ).failed.length = raw.length
      ∧ (∀ f ∈ (importGo root moveErr relinkRes raw occ).failed,
          ∃ wt ∈ raw, f.path = wt.path ∧ wt.path ≠ root
            ∧ ¬ (get_trees_dir root) <+: wt.path
            ∧ ∃ dest e, moveErr wt.path dest = some e
                ∧ f.error = "git worktree move failed: " ++ e)
      ∧ (∀ m ∈ (importGo root moveErr relinkRes raw occ).moved,
          ∃ wt ∈ raw, m.fromPath = wt.path
            ∧ moveErr wt.path m.toPath = none
            ∧ m.relink_error
                = (if (m.toPath.getLast?).getD "" = "" then
                    some "relink failed: unable to determine worktree name"
                  else (relinkRes ((m.toPath.getLast?).getD "")).map
                    (fun er => "relink failed: " ++ er))) := by
  induction raw with
  | nil =>
    intro occ
    exact ⟨rfl, rfl, by simp [importGo], by simp [importGo]⟩
  | cons wt rest ih =>
    intro occ
    by_cases h1 : wt.path = root
    · have heq : importGo root moveErr relinkRes (wt :: rest) occ
          = ⟨(importGo root moveErr relinkRes rest occ).moved,
             ⟨wt.path, "main worktree"⟩
               :: (importGo root moveErr relinkRes rest occ).skipped,
             (importGo root moveErr relinkRes rest occ).failed⟩ := by
        simp [importGo, h1]
      obtain ⟨i1, i2, i3, i4⟩ := ih occ
      rw [heq]
      refine ⟨?_, ?_, ?_, ?_⟩
      · simp [List.filterMap_cons, h1, i1]
      · simp only [List.length_cons]
        omega
      · intro f hf
        obtain ⟨wt1, hw, rest1⟩ := i3 f hf
        exact ⟨wt1, List.mem_cons_of_mem wt hw, rest1⟩
      · intro m hmv
        obtain ⟨wt1, hw, rest1⟩ := i4 m hmv
        exact ⟨wt1, List.mem_cons_of_mem wt hw, rest1⟩
    · by_cases h2 : (get_trees_dir root).isPrefixOf wt.path = true
      · have heq : importGo root moveErr relinkRes (wt :: rest) occ
            = ⟨(importGo root moveErr relinkRes rest occ).moved,
               ⟨wt.path, "already managed"⟩
                 :: (importGo root moveErr relinkRes rest occ).skipped,
               (importGo root moveErr relinkRes rest occ).failed⟩ := by
          simp [importGo, h1, h2]
        have hpre2 : get_trees_dir root <+: wt.path := by
          rw [isPrefixOf_eq_decide] at h2
          exact of_decide_eq_true h2
        obtain ⟨i1, i2, i3, i4⟩ := ih occ
        rw [heq]
        refine ⟨?_, ?_, ?_, ?_⟩
        · simp [List.filterMap_cons, h1, hpre2, i1]
        · simp only [List.length_cons]
          omega
        · intro f hf
          obtain ⟨wt1, hw, rest1⟩ := i3 f hf
          exact ⟨wt1, List.mem_cons_of_mem wt hw, rest1⟩
        · intro m hmv
          obtain ⟨wt1, hw, rest1⟩ := i4 m hmv
          exact ⟨wt1, List.mem_cons_of_mem wt hw, rest1⟩
      · have hpre : ¬ (get_trees_dir root) <+: wt.path := by
          intro hc
          exact h2 (by rw [isPrefixOf_eq_decide]; simpa using hc)
        rcases hmv : moveErr wt.path
            (unique_import_path occ (get_trees_dir root)
              ((wt.path.getLast?).getD "worktree")) with _ | e
        · -- the move succeeds: recorded as moved, with the relink outcome
          have heq : importGo root moveErr relinkRes (wt :: rest) occ
              = ⟨⟨wt.path,
                   unique_import_path occ (get_trees_dir root)
                     ((wt.path.getLast?).getD "worktree"),
                   if ((unique_import_path occ (get_trees_dir root)
                        ((wt.path.getLast?).getD "worktree")).getLast?).getD "" = ""
                   then some "relink failed: unable to determine worktree name"
                   else (relinkRes (((unique_import_path occ (get_trees_dir root)
                        ((wt.path.getLast?).getD "worktree")).getLast?).getD "")).map
                     (fun er => "relink failed: " ++ er)⟩
                 :: (importGo root moveErr relinkRes rest
                      (unique_import_path occ (get_trees_dir root)
                        ((wt.path.getLast?).getD "worktree") :: occ.erase wt.path)).moved,
                 (importGo root moveErr relinkRes rest
                   (unique_import_path occ (get_trees_dir root)
                     ((wt.path.getLast?).getD "worktree") :: occ.erase wt.path)).skipped,
                 (importGo root moveErr relinkRes rest
                   (unique_import_path occ (get_trees_dir root)
                     ((wt.path.getLast?).getD "worktree") :: occ.erase wt.path)).failed⟩ := by
            simp [importGo, h1, h2, hmv]
          obtain ⟨i1, i2, i3, i4⟩ := ih
            (unique_import_path occ (get_trees_dir root)
              ((wt.path.getLast?).getD "worktree") :: occ.erase wt.path)
          rw [heq]
          refine ⟨?_, ?_, ?_, ?_⟩
          · simp [List.filterMap_cons, h1, hpre, i1]
          · simp only [List.length_cons]
            omega
          · intro f hf
            obtain ⟨wt1, hw, rest1⟩ := i3 f hf
            exact ⟨wt1, List.mem_cons_of_mem wt hw, rest1⟩
          · intro m hmm
            rcases List.mem_cons.mp hmm with rfl | hmm
            · exact ⟨wt, List.mem_cons_self wt rest, rfl, hmv, rfl⟩
            · obtain ⟨wt1, hw, rest1⟩ := i4 m hmm
              exact ⟨wt1, List.mem_cons_of_mem wt hw, rest1⟩
        · -- the move fails: recorded as a failure, processing continues
          have heq : importGo root moveErr relinkRes (wt :: rest) occ
              = ⟨(importGo root moveErr relinkRes rest occ).moved,
                 (importGo root moveErr relinkRes rest occ).skipped,
                 ⟨wt.path, "git worktree move failed: " ++ e⟩
                   :: (importGo root moveErr relinkRes rest occ).failed⟩ := by
            simp [importGo, h1, h2, hmv]
          obtain ⟨i1, i2, i3, i4⟩ := ih occ
          rw [heq]
          refine ⟨?_, ?_, ?_, ?_⟩
          · simp [List.filterMap_cons, h1, hpre, i1]
          · simp only [List.length_cons]
            omega
          · intro f hf
            rcases List.mem_cons.mp hf with rfl | hf
            · exact ⟨wt, List.mem_cons_self wt rest, rfl, h1, hpre, _, e, hmv, rfl⟩
            · obtain ⟨wt1, hw, rest1⟩ := i3 f hf
              exact ⟨wt1, List.mem_cons_of_mem wt hw, rest1⟩
          · intro m hmm
            obtain ⟨wt1, hw, rest1⟩ := i4 m hmm
            exact ⟨wt1, List.mem_cons_of_mem wt hw, rest1⟩

/-- Claim C6: classification of `import_all_worktrees`.  (a) The skipped list
is exactly the main worktree (reason "main worktree") and the trees already
under the managed directory (reason "already managed"), in listing order;
(b) every listed worktree lands in exactly one of moved/skipped/failed
(the three lengths sum to the listing length); (c) every failure entry is a
foreign tree whose `git worktree move` command failed, recorded with the
move error, and — since the totality equation also holds for the listing
with the failing tree removed — processing of the remaining trees is not
aborted; (d) every moved entry had a successful move command, and its
recorded relink error is exactly the outcome of the best-effort re-link
keyed by the new worktree name (an error there never makes the entry a
failure); (e) the destination is made unique: a free base name is used
as-is, and a base name colliding with an existing path (`sibling` already
present) gets `-2` appended (`sibling-2`) when that is free. -/
theorem importAll_classification (root : FsPath)
    (moveErr : FsPath → FsPath → Option String)
    (relinkRes : String → Option String) (raw : List GitWorktree)
    (occ : List FsPath) :
    (import_all_worktrees root raw occ moveErr relinkRes).skipped
        = raw.filterMap (fun wt =>
            if wt.path = root then some ⟨wt.path, "main worktree"⟩
            else if (get_trees_dir root).isPrefixOf wt.path then
              some ⟨wt.path, "already managed"⟩
            else none)
    ∧ (import_all_worktrees root raw occ moveErr relinkRes).moved.length
        + (import_all_worktrees root raw occ moveErr relinkRes).skipped.length
        + (import_all_worktrees root raw occ moveErr relinkRes).failed.length
        = raw.length
    ∧ (∀ f ∈ (import_all_worktrees root raw occ moveErr relinkRes).failed,
        ∃ wt ∈ raw, f.path = wt.path ∧ wt.path ≠ root
          ∧ ¬ (get_trees_dir root) <+: wt.path
          ∧ ∃ dest e, moveErr wt.path dest = some e
              ∧ f.error = "git worktree move failed: " ++ e)
    ∧ (∀ m ∈ (import_all_worktrees root raw occ moveErr relinkRes).moved,
        ∃ wt ∈ raw, m.fromPath = wt.path
          ∧ moveErr wt.path m.toPath = none
          ∧ m.relink_error
              = (if (m.toPath.getLast?).getD "" = "" then
                  some "relink failed: unable to determine worktree name"
                else (relinkRes ((m.toPath.getLast?).getD "")).map
                  (fun er => "relink failed: " ++ er)))
    ∧ (∀ (occ' : List FsPath) (td : FsPath) (base : String), base ≠ "" →
        ((td ++ [base]) ∉ occ' → unique_import_path occ' td base = td ++ [base])
        ∧ ((td ++ [base]) ∈ occ' → (td ++ [base ++ "-2"]) ∉ occ' →
            unique_import_path occ' td base = td ++ [base ++ "-2"])) := by
  obtain ⟨i1, i2, i3, i4⟩ := importGo_spec root moveErr relinkRes raw occ
  exact ⟨i1, i2, i3, i4,
    fun occ' td base hb => unique_import_path_spec occ' td base hb⟩

/-- Witness for C6: the claim's own scenario — a foreign worktree named
`sibling` colliding with an existing `sibling` under the managed directory
is imported as `sibling-2`. -/
theorem importAll_classification_witness :
    unique_import_path [["repo", ".epi", "trees", "sibling"]]
        ["repo", ".epi", "trees"] "sibling"
      = ["repo", ".epi", "trees", "sibling-2"] := by
  have h := (importAll_classification [] (fun _ _ => none) (fun _ => none) [] []).2.2.2.2
      [["repo", ".epi", "trees", "sibling"]] ["repo", ".epi", "trees"] "sibling"
      (by decide)
  rw [h.2 (by decide) (by decide)]
  decide

end Epiphyte
